import Mathlib

/-!
Verification development for the computational core of the CsOptima backend:
the citation analyzer (src/utils/citation_analyzer.py) and the lexical
similarity engine (src/utils/cosinus_comparator.py, src/servicies/text_comparator.py).

The Python code is shallowly embedded: strings become `List Char`/`String`,
Python floats in the citation analyzer become exact rationals `ℚ` (its
arithmetic is +, ×, /, min, max, rounding only), and the similarity engine's
floats become real numbers `ℝ` (it uses sqrt and log).  Regular-expression
scanning (`re.finditer`, `re.split`, `re.findall`) is embedded as explicit
backtracking scanners with the same greedy, ordered-alternative semantics as
Python's `re` engine, written with explicit fuel so that every definition is
structurally recursive and kernel-reducible.

Python's Unicode tables are modelled on the scripts the analyzer handles:
ASCII and the Cyrillic block А-Я/а-я plus Ё/ё.  `str.lower`, `\w`, and `\s`
are embedded with that restriction; all concrete inputs in the theorems stay
inside these scripts.
-/

set_option maxRecDepth 10000

/-! ## Character classes -/

/-- ASCII letter a-z or A-Z. -/
def isAsciiLetter (c : Char) : Bool :=
  (decide ('a' ≤ c) && decide (c ≤ 'z')) || (decide ('A' ≤ c) && decide (c ≤ 'Z'))

/-- ASCII digit 0-9. -/
def isDigitChar (c : Char) : Bool :=
  decide ('0' ≤ c) && decide (c ≤ '9')

/-- ASCII alphanumeric, class `[a-zA-Z0-9]` of the domain pattern. -/
def isAlnum (c : Char) : Bool :=
  isAsciiLetter c || isDigitChar c

/-- Class `[a-zA-Z0-9-]` of the domain pattern. -/
def isAlnumDash (c : Char) : Bool :=
  isAlnum c || decide (c = '-')

/-- Cyrillic letters in the contiguous ranges А-Я and а-я (U+0410..U+044F).
The letter ё (U+0451) / Ё (U+0401) is outside these ranges. -/
def isCyrMain (c : Char) : Bool :=
  (decide ('А' ≤ c) && decide (c ≤ 'Я')) || (decide ('а' ≤ c) && decide (c ≤ 'я'))

/-- The letters ё and Ё. -/
def isYo (c : Char) : Bool :=
  decide (c = 'ё') || decide (c = 'Ё')

/-- Class `[a-zA-Zа-яА-ЯёЁ]` of the word-count regex in citation_analyzer.py.
Note that it does include ё and Ё. -/
def isWordLetter (c : Char) : Bool :=
  isAsciiLetter c || isCyrMain c || isYo c

/-- Class `[A-Za-zА-Яа-я0-9]` of `_TOKEN_RE` in cosinus_comparator.py.
Note that it does not include ё/Ё. -/
def isTokenChar (c : Char) : Bool :=
  isAsciiLetter c || isCyrMain c || isDigitChar c

/-- Python's `\w` (re.UNICODE word character), restricted to the scripts this
development models: Latin letters, Cyrillic letters including ё, digits, underscore. -/
def isPyWordChar (c : Char) : Bool :=
  isAsciiLetter c || isCyrMain c || isYo c || isDigitChar c || decide (c = '_')

/-- Python's `\s` / `str.strip` whitespace (ASCII part). -/
def isPyWs (c : Char) : Bool :=
  decide (c = ' ') || decide (c = '\t') || decide (c = '\n') || decide (c = '\r') ||
    decide (c = '\x0b') || decide (c = '\x0c')

/-- Python `str.lower`, restricted to ASCII and the Cyrillic block А-Я / Ё
(identity on every other character). -/
def pyLowerChar (c : Char) : Char :=
  if 'A' ≤ c ∧ c ≤ 'Z' then Char.ofNat (c.toNat + 32)
  else if 'А' ≤ c ∧ c ≤ 'Я' then Char.ofNat (c.toNat + 32)
  else if c = 'Ё' then 'ё'
  else c

/-! ## Python string helpers -/

/-- Python `str.strip()`: remove leading and trailing whitespace. -/
def pyStrip (l : List Char) : List Char :=
  ((l.dropWhile isPyWs).reverse.dropWhile isPyWs).reverse

/-- Python `str.split(sep)` for a single-character separator: keeps empty pieces. -/
def splitOnChar (sep : Char) : List Char → List (List Char)
  | [] => [[]]
  | c :: rest =>
    match splitOnChar sep rest with
    | [] => [[]]
    | h :: t => if c = sep then [] :: h :: t else (c :: h) :: t

/-- Python `' '.join(...)` on character lists. -/
def joinSpace : List (List Char) → List Char
  | [] => []
  | [l] => l
  | l :: rest => l ++ ' ' :: joinSpace rest

/-- Join character lists with a newline between consecutive entries. -/
def joinNl : List (List Char) → List Char
  | [] => []
  | [l] => l
  | l :: rest => l ++ '\n' :: joinNl rest

/-! ## Backtracking helpers shared by the regex scanners

A component of a regular expression is embedded as a list of candidate
consumed-lengths in the engine's preference order (greedy: longest first,
alternations in written order); `firstHit` runs the continuation on each
candidate and keeps the first success, which is exactly the backtracking
order of Python's `re`. -/

/-- Try candidates in order; return the first success of the continuation. -/
def firstHit (cands : List Nat) (k : Nat → Option α) : Option α :=
  match cands with
  | [] => none
  | c :: rest =>
    match k c with
    | some r => some r
    | none => firstHit rest k

/-- The list `[n, n-1, ..., 0]`. -/
def downFrom : Nat → List Nat
  | 0 => [0]
  | n + 1 => (n + 1) :: downFrom n

/-- Case-insensitive literal match (pattern given in lowercase); returns the
consumed length, i.e. the pattern length, on success. -/
def matchLitCI : List Char → List Char → Option Nat
  | [], _ => some 0
  | _ :: _, [] => none
  | p :: ps, c :: cs =>
    if pyLowerChar c = p then
      match matchLitCI ps cs with
      | some n => some (n + 1)
      | none => none
    else none

/-! ## The domain pattern (DOMAIN_PATTERN of citation_analyzer.py)

`(?:https?://)?(?:www\.)?([a-zA-Z0-9](?:[a-zA-Z0-9-]{0,61}[a-zA-Z0-9])?\.(?:[a-zA-Z]{2,})(?:\.[a-zA-Z]{2,})?)(?:/[^\s,;.]*)?`
with re.IGNORECASE.  Each component below returns its candidate consumed
lengths in preference order. -/

/-- Candidates for `(?:https?://)?`: with the optional s first (greedy), then without, then empty. -/
def protoCands (l : List Char) : List Nat :=
  (match matchLitCI (String.data ("https://")) l with
   | some n => [n]
   | none => []) ++
  (match matchLitCI (String.data ("http://")) l with
   | some n => [n]
   | none => []) ++ [0]

/-- Candidates for `(?:www\.)?`. -/
def wwwCands (l : List Char) : List Nat :=
  (match matchLitCI (String.data ("www.")) l with
   | some n => [n]
   | none => []) ++ [0]

/-- Candidates for the second-level-domain label
`[a-zA-Z0-9](?:[a-zA-Z0-9-]{0,61}[a-zA-Z0-9])?`: one alphanumeric character,
then (greedy, longest first) an optional tail of up to 61 dash-alphanumerics
ending in an alphanumeric. -/
def sldCands (l : List Char) : List Nat :=
  match l with
  | [] => []
  | c :: rest =>
    if isAlnum c then
      let run := (rest.takeWhile isAlnumDash).length
      ((downFrom (min 61 run)).filterMap (fun t =>
        match rest.get? t with
        | some d => if isAlnum d then some (t + 2) else none
        | none => none)) ++ [1]
    else []

/-- Candidates for `[a-zA-Z]{2,}` (greedy, longest first). -/
def tldCands (l : List Char) : List Nat :=
  let run := (l.takeWhile isAsciiLetter).length
  if run < 2 then [] else (downFrom run).filter (fun k => 2 ≤ k)

/-- Candidates for `(?:\.[a-zA-Z]{2,})?` (with the label first, then empty). -/
def tld2Cands (l : List Char) : List Nat :=
  (match l with
   | '.' :: rest => (tldCands rest).map (· + 1)
   | _ => []) ++ [0]

/-- Candidates for the discarded path `(?:/[^\s,;.]*)?` (greedy, longest first, then empty). -/
def pathCands (l : List Char) : List Nat :=
  (match l with
   | '/' :: rest =>
     let r := (rest.takeWhile (fun c => !(isPyWs c || c = ',' || c = ';' || c = '.'))).length
     (downFrom r).map (· + 1)
   | _ => []) ++ [0]

/-- A successful match of DOMAIN_PATTERN at the head of the input:
`pre` characters before the capture group, `grp` characters of group 1,
`total` characters consumed in all. -/
structure DomainMatch where
  pre : Nat
  grp : Nat
  total : Nat
deriving DecidableEq, Repr

/-- Match DOMAIN_PATTERN anchored at the head of `l`, with full backtracking
in the preference order of Python's `re`. -/
def matchDomainAt (l : List Char) : Option DomainMatch :=
  firstHit (protoCands l) (fun p =>
    firstHit (wwwCands (l.drop p)) (fun w =>
      firstHit (sldCands (l.drop (p + w))) (fun s =>
        match l.drop (p + w + s) with
        | '.' :: rest1 =>
          firstHit (tldCands rest1) (fun t =>
            firstHit (tld2Cands (rest1.drop t)) (fun t2 =>
              firstHit (pathCands (rest1.drop (t + t2))) (fun pa =>
                some ⟨p + w, s + 1 + t + t2, p + w + s + 1 + t + t2 + pa⟩)))
        | _ => none)))

/-! ## The glued-domain pattern (GLUED_DOMAIN_PATTERN)

`([a-zA-Z0-9-]+\.(?:com|ru|org|net|co\.uk|io|info|biz|edu|gov|uk|de|fr|es|it|nl|eu|us|ca|au|jp|cn|in|br|mx|pl|cz|sk|ua|by|kz|[a-z]{2,3}(?:\.[a-z]{2})?))(?=[a-zA-Z0-9])`
with re.IGNORECASE. -/

/-- The literal alternatives of the glued-domain TLD alternation, in source order. -/
def tldAltLits : List (List Char) :=
  [("com"), ("ru"), ("org"), ("net"), ("co.uk"), ("io"), ("info"), ("biz"),
   ("edu"), ("gov"), ("uk"), ("de"), ("fr"), ("es"), ("it"), ("nl"), ("eu"),
   ("us"), ("ca"), ("au"), ("jp"), ("cn"), ("in"), ("br"), ("mx"), ("pl"),
   ("cz"), ("sk"), ("ua"), ("by"), ("kz")].map String.data

/-- Candidates for the final alternative `[a-z]{2,3}(?:\.[a-z]{2})?`:
3 letters before 2 (greedy), each with the optional dotted pair first. -/
def glueFallbackCands (l : List Char) : List Nat :=
  let run := (l.takeWhile isAsciiLetter).length
  ([3, 2].filter (fun k => k ≤ run)).flatMap (fun k =>
    (match l.get? k, l.get? (k + 1), l.get? (k + 2) with
     | some '.', some c1, some c2 =>
       if isAsciiLetter c1 && isAsciiLetter c2 then [k + 3] else []
     | _, _, _ => []) ++ [k])

/-- Candidates for the whole TLD alternation of the glued pattern, in
alternation order: the literals first, then the 2-3 letter fallback. -/
def glueAltCands (l : List Char) : List Nat :=
  (tldAltLits.filterMap (fun lit => matchLitCI lit l)) ++ glueFallbackCands l

/-- Match GLUED_DOMAIN_PATTERN anchored at the head of `l`: a maximal-first
backtracking `[a-zA-Z0-9-]+` run, a dot, the TLD alternation, and the
zero-width lookahead `(?=[a-zA-Z0-9])`.  Returns the consumed (group) length. -/
def matchGluedAt (l : List Char) : Option Nat :=
  let run := (l.takeWhile isAlnumDash).length
  firstHit ((downFrom run).filter (fun k => 1 ≤ k)) (fun k =>
    match l.get? k with
    | some '.' =>
      firstHit (glueAltCands (l.drop (k + 1))) (fun m =>
        match l.get? (k + 1 + m) with
        | some c => if isAlnum c then some (k + 1 + m) else none
        | none => none)
    | _ => none)

/-- The glue repair pass of `_extract_domains_from_text`: scan for glued-domain
matches left to right (non-overlapping, continuing at each match end, exactly
like `re.finditer`) and insert one space after each match. -/
def glueScan (fuel : Nat) (l : List Char) : List Char :=
  match fuel with
  | 0 => l
  | fuel + 1 =>
    match l with
    | [] => []
    | c :: rest =>
      match matchGluedAt (c :: rest) with
      | some k => (c :: rest).take k ++ ' ' :: glueScan fuel ((c :: rest).drop k)
      | none => c :: glueScan fuel rest

/-- `_normalize_domain`: lowercase and strip, remove a leading protocol and
`www.`, drop everything from the first `/` and the first `:`. -/
def normalize_domain (l : List Char) : List Char :=
  let d := pyStrip (l.map pyLowerChar)
  let d := match matchLitCI (String.data ("https://")) d with
           | some n => d.drop n
           | none => match matchLitCI (String.data ("http://")) d with
                     | some n => d.drop n
                     | none => d
  let d := match matchLitCI (String.data ("www.")) d with
           | some n => d.drop n
           | none => d
  let d := d.takeWhile (fun c => !(c = '/'))
  d.takeWhile (fun c => !(c = ':'))

/-- The `re.finditer` loop of `_extract_domains_from_text`: scan left to right,
at each position try DOMAIN_PATTERN; on a match emit the normalized capture
group (if longer than 3 characters) and continue at the match end. -/
def domainScan (fuel : Nat) (l : List Char) : List (List Char) :=
  match fuel with
  | 0 => []
  | fuel + 1 =>
    match l with
    | [] => []
    | c :: rest =>
      match matchDomainAt (c :: rest) with
      | some m =>
        let dom := normalize_domain (((c :: rest).drop m.pre).take m.grp)
        if 3 < dom.length then dom :: domainScan fuel ((c :: rest).drop m.total)
        else domainScan fuel ((c :: rest).drop m.total)
      | none => domainScan fuel rest

/-- `_extract_domains_from_text`: the glue repair pass followed by the domain
match pass with normalization and the minimal-length filter. -/
def extract_domains_from_text (l : List Char) : List (List Char) :=
  let processed := glueScan (l.length + 1) l
  domainScan (processed.length + 1) processed

/-! ## Word counting: `len(re.findall(r'\b[a-zA-Zа-яА-ЯёЁ]+\b', text))`

A match of `\b[C]+\b` is exactly a maximal `\w` run whose characters all lie
in the class C: a shorter sub-run is rejected by the word-boundary anchors,
and a maximal run containing a non-C word character admits no match at all. -/

/-- Count the maximal `\w` runs of `l` consisting entirely of `[a-zA-Zа-яА-ЯёЁ]`. -/
def countWordTokens (fuel : Nat) (l : List Char) : Nat :=
  match fuel with
  | 0 => 0
  | fuel + 1 =>
    match l with
    | [] => 0
    | c :: rest =>
      if isPyWordChar c then
        let run := c :: rest.takeWhile isPyWordChar
        (if run.all isWordLetter then 1 else 0) +
          countWordTokens fuel (rest.dropWhile isPyWordChar)
      else countWordTokens fuel rest

/-- Word count of a paragraph or line, as in the source. -/
def wordCount (l : List Char) : Nat := countWordTokens (l.length + 1) l

/-! ## Paragraph segmentation (`_split_into_paragraphs`) -/

/-- Anchored match of the paragraph-separator regex `\n\s*\n|\n{2,}`:
first alternative (newline, greedy whitespace, newline) with backtracking,
then the second; returns the consumed length. -/
def blankMatchLen (l : List Char) : Option Nat :=
  match l with
  | '\n' :: rest =>
    let run := (rest.takeWhile isPyWs).length
    match firstHit (downFrom run) (fun k =>
        match rest.get? k with
        | some '\n' => some (k + 2)
        | _ => none) with
    | some n => some n
    | none =>
      let nl := (('\n' :: rest).takeWhile (fun c => c = '\n')).length
      if 2 ≤ nl then some nl else none
  | _ => none

/-- `re.split(r'\n\s*\n|\n{2,}', ·)`: scan left to right, cutting at each
match of the separator. -/
def splitBlank (fuel : Nat) (cur : List Char) (l : List Char) : List (List Char) :=
  match fuel with
  | 0 => [cur.reverse ++ l]
  | fuel + 1 =>
    match l with
    | [] => [cur.reverse]
    | c :: rest =>
      match blankMatchLen (c :: rest) with
      | some k => cur.reverse :: splitBlank fuel [] ((c :: rest).drop k)
      | none => splitBlank fuel (c :: cur) rest

/-- The citation-line test of `_split_into_paragraphs`, line 190 of the source:
`domains_in_line and (len(domains_in_line) >= words_in_line / 3 or words_in_line < 5)`
(the division is Python true division, embedded exactly as a rational comparison). -/
def isCitationLine (domains : List (List Char)) (words : Nat) : Bool :=
  !domains.isEmpty &&
    (decide ((domains.length : ℚ) ≥ (words : ℚ) / 3) || decide (words < 5))

/-- The body of the per-line loop of `_split_into_paragraphs`: strip the line,
skip it if empty, extract its domains and word count, and extend either the
citation list or the prose-line list. -/
def lineStep (acc : List (List Char) × List (List Char)) (rawLine : List Char) :
    List (List Char) × List (List Char) :=
  let line := pyStrip rawLine
  if line = [] then acc
  else
    let domains := extract_domains_from_text line
    let words := wordCount line
    if isCitationLine domains words then (acc.1, acc.2 ++ domains)
    else (acc.1 ++ [line], acc.2)

/-- The per-paragraph body of the first loop of `_split_into_paragraphs`:
skip blank paragraphs, split into lines, classify each line, and append
`(joined prose, citations)` only when at least one prose line exists. -/
def paraStep (acc : List (List Char × List (List Char)))
    (para : List Char) : List (List Char × List (List Char)) :=
  if pyStrip para = [] then acc
  else
    let lines := splitOnChar '\n' (pyStrip para)
    let tc := lines.foldl lineStep ([], [])
    if tc.1 = [] then acc else acc ++ [(joinSpace tc.1, tc.2)]

/-- The post-processing loop of `_split_into_paragraphs` (lines 201-214):
a paragraph with blank prose but citations is folded into the previous
paragraph; otherwise it is kept. -/
def mergeStep (acc : List (List Char × List (List Char)))
    (e : List Char × List (List Char)) : List (List Char × List (List Char)) :=
  match acc.getLast? with
  | some prev =>
    if pyStrip e.1 = [] ∧ e.2 ≠ [] then acc.dropLast ++ [(prev.1, prev.2 ++ e.2)]
    else acc ++ [e]
  | none => acc ++ [e]

/-- `_split_into_paragraphs`: split on blank lines, classify the lines of each
paragraph, then run the trailing-citation post-process. -/
def split_into_paragraphs (text : List Char) : List (List Char × List (List Char)) :=
  let stripped := pyStrip text
  let parasRaw := splitBlank (stripped.length + 1) [] stripped
  let result := parasRaw.foldl paraStep []
  result.foldl mergeStep []

/-! ## Parsing (`_parse_response`) and the analysis-run state -/

/-- One cited-domain occurrence (dataclass `Citation`). -/
structure Citation where
  domain : String
  position : Nat
  paragraph_index : Nat
  index_in_group : Nat
  group_size : Nat
  window_words : Nat
deriving DecidableEq, Repr

/-- One segmented paragraph (dataclass `ParagraphData`). -/
structure ParagraphData where
  text : String
  word_count : Nat
  citations : List String
deriving DecidableEq, Repr, Inhabited

/-- The state of a `CitationAnalyzer` instance: the target plus the
analysis-run structures rebuilt by `_parse_response` on every call.
`site_citations` is an insertion-ordered association list, matching the
iteration order of the Python `defaultdict`. -/
structure AnalyzerState where
  target_site : String
  all_citations : List Citation
  site_citations : List (String × List Citation)
  total_words : Nat
  paragraphs : List ParagraphData
deriving DecidableEq, Repr

/-- `CitationAnalyzer.__init__`: normalize the target and start with empty
run state. -/
def analyzerInit (target_site : String) : AnalyzerState :=
  { target_site := String.mk (normalize_domain target_site.data)
    all_citations := []
    site_citations := []
    total_words := 0
    paragraphs := [] }

/-- Append a citation to the per-domain mapping, preserving first-encounter
key order (`defaultdict(list)` insertion semantics). -/
def sitePush (m : List (String × List Citation)) (d : String) (c : Citation) :
    List (String × List Citation) :=
  match m with
  | [] => [(d, [c])]
  | (k, v) :: rest =>
    if k = d then (k, v ++ [c]) :: rest else (k, v) :: sitePush rest d c

/-- The inner citation loop of `_parse_response`: walk one paragraph's
citation list, emitting a `Citation` per domain with running in-group index
and global position, appending to the flat list and the per-domain mapping. -/
def citLoop (paraIdx gsize ww : Nat) :
    List String → Nat → Nat → List Citation → List (String × List Citation) →
    Nat × List Citation × List (String × List Citation)
  | [], _, gpos, all, sites => (gpos, all, sites)
  | d :: rest, idx, gpos, all, sites =>
    let c : Citation :=
      { domain := d, position := gpos, paragraph_index := paraIdx
        index_in_group := idx, group_size := gsize, window_words := ww }
    citLoop paraIdx gsize ww rest (idx + 1) (gpos + 1) (all ++ [c]) (sitePush sites d c)

/-- The paragraph loop of `_parse_response`: accumulate word counts, build
`ParagraphData`, and emit all citations in order. -/
def parseLoop :
    List (String × List String) → Nat → Nat → Nat →
    List ParagraphData → List Citation → List (String × List Citation) →
    Nat × List ParagraphData × List Citation × List (String × List Citation)
  | [], _, _, tw, paras, all, sites => (tw, paras, all, sites)
  | (ptext, cits) :: rest, paraIdx, gpos, tw, paras, all, sites =>
    let wc := wordCount ptext.data
    let pd : ParagraphData := { text := ptext, word_count := wc, citations := cits }
    let r := citLoop paraIdx cits.length wc cits 0 gpos all sites
    parseLoop rest (paraIdx + 1) r.1 (tw + wc) (paras ++ [pd]) r.2.1 r.2.2

/-- The segmenter's result with the pieces converted to `String`, the shape
`_split_into_paragraphs` hands to `_parse_response`. -/
def segmentText (text : String) : List (String × List String) :=
  (split_into_paragraphs text.data).map
    (fun e => (String.mk e.1, e.2.map String.mk))

/-- `_parse_response`: reset the run state and rebuild it from the response
text; only `target_site` survives from the previous state. -/
def parse_response (a : AnalyzerState) (response_text : String) : AnalyzerState :=
  let r := parseLoop (segmentText response_text) 0 0 0 [] [] []
  { target_site := a.target_site
    all_citations := r.2.2.1
    site_citations := r.2.2.2
    total_words := r.1
    paragraphs := r.2.1 }

/-! ## Metrics (`_calculate_pos`, `_calculate_word`, `_calculate_citation_quality`) -/

/-- `self._site_citations.get(site, [])`. -/
def lookupCitations (st : AnalyzerState) (site : String) : List Citation :=
  match st.site_citations.lookup site with
  | some cs => cs
  | none => []

/-- One citation's term `10 * (0.5 ** position)` of the raw positional sum. -/
def posTerm (c : Citation) : ℚ := 10 * (1 / 2) ^ c.position

/-- `_calculate_pos`: the normalized, capped positional weight. -/
def calculate_pos (st : AnalyzerState) (site : String) : ℚ :=
  let citations := lookupCitations st site
  if citations = [] then 0
  else min (((citations.map posTerm).sum) / 10) 1

/-- Group a site's citations by paragraph index, preserving first-encounter
key order (`defaultdict(list)` again). -/
def paraPush (m : List (Nat × List Citation)) (i : Nat) (c : Citation) :
    List (Nat × List Citation) :=
  match m with
  | [] => [(i, [c])]
  | (k, v) :: rest =>
    if k = i then (k, v ++ [c]) :: rest else (k, v) :: paraPush rest i c

/-- The grouping loop of `_calculate_word`. -/
def groupByPara (cs : List Citation) : List (Nat × List Citation) :=
  cs.foldl (fun m c => paraPush m c.paragraph_index c) []

/-- `_calculate_word`: the capped share of text attributed to the site, with
the division guards of the source (`total_words == 0`, missing paragraph
index, empty slot count). -/
def calculate_word (st : AnalyzerState) (site : String) : ℚ :=
  if st.total_words = 0 then 0
  else
    let citations := lookupCitations st site
    if citations = [] then 0
    else
      let total_attributed :=
        ((groupByPara citations).map (fun g =>
          if g.1 < st.paragraphs.length then
            let para := st.paragraphs.getD g.1 default
            if para.citations.length = 0 then 0
            else ((para.word_count : ℚ) * g.2.length) / para.citations.length
          else 0)).sum
      min (total_attributed / st.total_words) 1

/-- `_calculate_citation_quality`: per-citation raw quality, averaged, scaled
by the solo/group factor, plus the uniqueness bonus, capped at 1. -/
def calculate_citation_quality (st : AnalyzerState) (site : String) : ℚ :=
  let citations := lookupCitations st site
  if citations = [] then 0
  else
    let has_solo := citations.any (fun c => c.group_size = 1)
    let has_group := citations.any (fun c => decide (1 < c.group_size))
    let solo_group_factor : ℚ :=
      if has_solo && has_group then 1 else if has_solo then 9 / 10 else 7 / 10
    let is_unique := st.site_citations.length = 1 ∧ st.all_citations.length = 1
    let unique_bonus : ℚ := if is_unique then 1 / 10 else 0
    let quality_scores := citations.map (fun c =>
      (1 : ℚ) / c.group_size + max 0 ((3 : ℚ) / 10 - 1 / 10 * c.index_in_group) +
        (if 20 < c.window_words then 2 / 10 else 0))
    let avg_quality := quality_scores.sum / quality_scores.length
    min (avg_quality * solo_group_factor + unique_bonus) 1

/-- Per-site scalar metrics (dataclass `SiteMetrics`). -/
structure SiteMetrics where
  pos : ℚ
  word : ℚ
  citation_quality : ℚ
  total_score : ℚ
deriving DecidableEq, Repr

/-- `_calculate_metrics_for_site`: the three metrics and their weighted blend. -/
def calculate_metrics_for_site (st : AnalyzerState) (site : String) : SiteMetrics :=
  let pos := calculate_pos st site
  let word := calculate_word st site
  let cq := calculate_citation_quality st site
  { pos := pos, word := word, citation_quality := cq
    total_score := pos * (6 / 10) + word * (3 / 10) + cq * (1 / 10) }

/-- Python `round(x, 4)`, modelled as rounding to the nearest multiple of
1/10000 (ties upward; the source's values never sit exactly on a tie). -/
def round4 (x : ℚ) : ℚ := (⌊x * 10000 + 1 / 2⌋ : ℚ) / 10000

/-- `SiteMetrics.to_dict`: the four fields rounded to 4 decimal places. -/
def roundMetrics (m : SiteMetrics) : SiteMetrics :=
  { pos := round4 m.pos, word := round4 m.word
    citation_quality := round4 m.citation_quality
    total_score := round4 m.total_score }

/-- The best-competitor loop of `evaluate`: strict improvement over a running
best initialized to `(None, 0.0)`. -/
def bestFold (l : List (String × SiteMetrics)) : Option String × ℚ :=
  l.foldl (fun b e =>
    if b.2 < e.2.total_score then (some e.1, round4 e.2.total_score) else b)
    ((none : Option String), (0 : ℚ))

/-- The structured result of `evaluate`. -/
structure EvalResult where
  pos : ℚ
  word : ℚ
  citation_quality : ℚ
  total_score : ℚ
  competitors : List (String × SiteMetrics)
  best_site : Option String
  best_score : ℚ
deriving DecidableEq, Repr

/-- `CitationAnalyzer.evaluate`: parse, compute target metrics, competitor
metrics for every other discovered site (in discovery order), and the best
competitor; returns the updated state together with the result. -/
def evaluate (a : AnalyzerState) (response_text : String) :
    AnalyzerState × EvalResult :=
  let st := parse_response a response_text
  let tm := calculate_metrics_for_site st st.target_site
  let competitors := st.site_citations.filterMap (fun e =>
    if e.1 ≠ st.target_site then some (e.1, roundMetrics (calculate_metrics_for_site st e.1))
    else none)
  let best := bestFold competitors
  (st,
   { pos := round4 tm.pos, word := round4 tm.word
     citation_quality := round4 tm.citation_quality
     total_score := round4 tm.total_score
     competitors := competitors
     best_site := best.1
     best_score := best.2 })

/-- Module-level `calculate_metrics`: a fresh analyzer per call. -/
def calculate_metrics (response_text : String) (target_site : String) : EvalResult :=
  (evaluate (analyzerInit target_site) response_text).2

/-! ## The lexical similarity engine (cosinus_comparator.py)

The analyzer above never leaves ℚ; this engine uses `math.sqrt` and
`math.log`, so its numeric layer is embedded over `ℝ` (exact real arithmetic
in place of IEEE doubles).  The token layer stays computable. -/

/-- The `findall` loop of `_TOKEN_RE = [A-Za-zА-Яа-я0-9]+`: maximal runs of
the token class. -/
def tokenRuns (fuel : Nat) (l : List Char) : List (List Char) :=
  match fuel with
  | 0 => []
  | fuel + 1 =>
    match l with
    | [] => []
    | c :: rest =>
      if isTokenChar c then
        (c :: rest.takeWhile isTokenChar) :: tokenRuns fuel (rest.dropWhile isTokenChar)
      else tokenRuns fuel rest

/-- `tokenize(text)`: the token runs of the lowercased text. -/
def tokenize (text : String) : List String :=
  let low := text.data.map pyLowerChar
  (tokenRuns (low.length + 1) low).map String.mk

/-- Python `' '.join` on strings. -/
def joinSpaceStr (ls : List String) : String :=
  String.mk (joinSpace (ls.map String.data))

/-- The n-gram windows `[' '.join(tokens[i:i+n]) for i in range(len(tokens) - n + 1)]`.
(`len + 1 - n` in ℕ: a negative Python range is empty, matching truncated
subtraction.) -/
def ngramsOfLen (tokens : List String) (n : Nat) : List String :=
  (List.range (tokens.length + 1 - n)).map (fun i => joinSpaceStr ((tokens.drop i).take n))

/-- `generate_ngrams(tokens, (lo, hi))`. -/
def generate_ngrams (tokens : List String) (r : Nat × Nat) : List String :=
  ((List.range (r.2 + 1)).drop r.1).flatMap (fun n =>
    if n = 1 then tokens else ngramsOfLen tokens n)

/-- `remove_stopwords`: a no-op for an empty collection, else a set-membership
filter. -/
def remove_stopwords (tokens : List String) (stopwords : List String) : List String :=
  if stopwords = [] then tokens
  else tokens.filter (fun t => !stopwords.contains t)

/-- `prepare_tokens`: tokenize, drop stopwords, expand n-grams. -/
def prepare_tokens (text : String) (stopwords : List String) (r : Nat × Nat) :
    List String :=
  generate_ngrams (remove_stopwords (tokenize text) stopwords) r

/-- One step of `build_vocabulary`: `if tok not in vocab: vocab[tok] = len(vocab)`. -/
def vocabInsert (v : List (String × Nat)) (tok : String) : List (String × Nat) :=
  if (v.lookup tok).isSome then v else v ++ [(tok, v.length)]

/-- `build_vocabulary`: token → sequential id, first-seen order across the corpus. -/
def build_vocabulary (corpus : List (List String)) : List (String × Nat) :=
  corpus.foldl (fun vocab doc => doc.foldl vocabInsert vocab) []

/-- Increment the entry at an index of a list of counters. -/
def bumpAt : List Nat → Nat → List Nat
  | [], _ => []
  | x :: rest, 0 => (x + 1) :: rest
  | x :: rest, i + 1 => x :: bumpAt rest i

/-- One token step of the document-frequency pass: the accumulator carries the
df counters and the per-document `seen` set of already-counted indices. -/
def dfStep (vocab : List (String × Nat)) (acc : List Nat × List Nat) (tok : String) :
    List Nat × List Nat :=
  let idx := (vocab.lookup tok).getD 0
  if acc.2.contains idx then acc else (bumpAt acc.1 idx, acc.2 ++ [idx])

/-- The per-document document-frequency pass of `compute_idf`: each vocabulary
index is counted at most once per document, tracked by the `seen` set.
(`vocab[tok]` cannot miss, the vocabulary being built from the same corpus;
the total embedding gives a missing key index 0.) -/
def dfDocPass (vocab : List (String × Nat)) (df : List Nat) (doc : List String) :
    List Nat :=
  (doc.foldl (dfStep vocab) (df, ([] : List Nat))).1

/-- `compute_idf`: smoothed IDF `log((N + 1) / (df + 1)) + 1` per vocabulary term. -/
noncomputable def compute_idf (corpus : List (List String))
    (vocab : List (String × Nat)) : List ℝ :=
  let N := corpus.length
  let df := corpus.foldl (dfDocPass vocab) (List.replicate vocab.length 0)
  df.map (fun dfi : Nat => Real.log (((N : ℝ) + 1) / ((dfi : ℝ) + 1)) + 1)

/-- One bump of `Counter`: increment an existing key or append a new one
(first-occurrence iteration order, as in Python). -/
def counterBump (acc : List (String × Nat)) (t : String) : List (String × Nat) :=
  match acc with
  | [] => [(t, 1)]
  | (k, v) :: rest =>
    if k = t then (k, v + 1) :: rest else (k, v) :: counterBump rest t

/-- `Counter(doc)` as an insertion-ordered association list. -/
def counter (doc : List String) : List (String × Nat) :=
  doc.foldl counterBump []

/-- `l2_normalize`: divide by the Euclidean norm, with the source's
`or 1.0` guard against a zero norm. -/
noncomputable def l2_normalize (vec : List (Nat × ℝ)) : List (Nat × ℝ) :=
  let norm := Real.sqrt ((vec.map (fun e => e.2 * e.2)).sum)
  let norm := if norm = 0 then 1 else norm
  vec.map (fun e => (e.1, e.2 / norm))

/-- One step of the `to_tfidf` loop: a counter entry contributes
`count × idf[idx]` at its vocabulary index (entries not in the vocabulary are
skipped, as in the source's `if tok in vocab`). -/
noncomputable def tfidfEntry (vocab : List (String × Nat)) (idf : List ℝ)
    (vec : List (Nat × ℝ)) (e : String × Nat) : List (Nat × ℝ) :=
  match vocab.lookup e.1 with
  | some idx => vec ++ [(idx, (e.2 : ℝ) * idf.getD idx 0)]
  | none => vec

/-- `to_tfidf`: raw `count × idf` weights over the document's counter, then
L2 normalization. -/
noncomputable def to_tfidf (doc : List String) (vocab : List (String × Nat))
    (idf : List ℝ) : List (Nat × ℝ) :=
  l2_normalize ((counter doc).foldl (tfidfEntry vocab idf) [])

/-- `cosine_similarity_sparse`: dot product iterating the smaller vector,
after the source's swap. -/
noncomputable def cosine_similarity_sparse (a b : List (Nat × ℝ)) : ℝ :=
  let p := if b.length < a.length then (b, a) else (a, b)
  (p.1.map (fun e => e.2 * ((p.2.lookup e.1).getD 0))).sum

/-- `tfidf_cosine_similarity`: the whole two-document pipeline. -/
noncomputable def tfidf_cosine_similarity (text_a text_b : String)
    (stopwords : List String) (r : Nat × Nat) : ℝ :=
  let doc_a := prepare_tokens text_a stopwords r
  let doc_b := prepare_tokens text_b stopwords r
  let corpus := [doc_a, doc_b]
  let vocab := build_vocabulary corpus
  let idf := compute_idf corpus vocab
  let vec_a := to_tfidf doc_a vocab idf
  let vec_b := to_tfidf doc_b vocab idf
  cosine_similarity_sparse vec_a vec_b

/-- `ru_stopwords` (a set in the source; only membership and emptiness are used). -/
def ru_stopwords : List String :=
  [("и"), ("в"), ("во"), ("на"), ("но"), ("а"), ("что"), ("как"), ("за"), ("к"),
   ("с"), ("со"), ("из"), ("у"), ("от"), ("по"), ("для"), ("о"), ("об"), ("обо"),
   ("до"), ("при"), ("без"), ("над"), ("под"), ("про"), ("же"), ("ли"), ("либо"),
   ("ни"), ("да"), ("то"), ("не")]

/-! ## Invariants of the analysis-run state (spec §3)

`_calculate_word` reads a site's citations through the per-site mapping but
counts slots through the paragraph structure; the invariants below are the
§3 links between the two that `_parse_response` establishes. -/

/-- Well-formedness of an analysis run: distinct mapping keys, in-range
paragraph indices, the per-paragraph filter/count link, and every paragraph
citation present in the mapping. -/
def stateWF (st : AnalyzerState) : Prop :=
  (st.site_citations.map Prod.fst).Nodup ∧
  (∀ e ∈ st.site_citations, ∀ c ∈ e.2, c.paragraph_index < st.paragraphs.length) ∧
  (∀ e ∈ st.site_citations, ∀ i < st.paragraphs.length,
    (e.2.filter (fun c => c.paragraph_index = i)).length =
      (st.paragraphs.getD i default).citations.count e.1) ∧
  (∀ p ∈ st.paragraphs, ∀ d ∈ p.citations, (st.site_citations.lookup d).isSome)

instance (st : AnalyzerState) : Decidable (stateWF st) := by
  unfold stateWF
  infer_instance

/-- Structural invariant of the vocabulary association list: distinct tokens,
distinct ids, ids below the length (so ids are a permutation-free enumeration). -/
def VocabInv (v : List (String × Nat)) : Prop :=
  (v.map Prod.fst).Nodup ∧ (v.map Prod.snd).Nodup ∧ ∀ e ∈ v, e.2 < v.length

/-! ## An adversarial low-score response (used for the best-competitor analysis)

One paragraph: a digits-only prose line (word count 0), 25 citations of the
target, then 1400 citations of a single competitor, and a final digits-only
prose line.  Every competitor citation sits at global position ≥ 25 in a
group of 1425, so the competitor's total score is positive but rounds to
0.0000 at 4 decimal places. -/

/-- The lines of the flood response. -/
def floodLines : List (List Char) :=
  String.data ("12345") ::
    (List.replicate 25 (String.data ("botanichka.ru")) ++
     List.replicate 1400 (String.data ("a.ru")) ++ [String.data ("12345")])

/-- The flood response text: the lines joined by single newlines (one paragraph). -/
def floodText : String := String.mk (joinNl floodLines)

/-- The spec-side word sum of §4.5: over the paragraphs containing the site,
`word_count × count / slots`. -/
def specWordSum (st : AnalyzerState) (site : String) : ℚ :=
  (((List.range st.paragraphs.length).filter (fun i =>
      0 < (st.paragraphs.getD i default).citations.count site)).map (fun i =>
        ((st.paragraphs.getD i default).word_count : ℚ) *
          ((st.paragraphs.getD i default).citations.count site) /
          ((st.paragraphs.getD i default).citations.length))).sum

/-- The target's citations in the flood response: positions 0-24 in a group
of 1425 inside paragraph 0, whose prose has 0 letter-words. -/
def botCit (j : Nat) : Citation :=
  { domain := ("botanichka.ru"), position := j, paragraph_index := 0,
    index_in_group := j, group_size := 1425, window_words := 0 }

/-- The competitor's citations in the flood response: positions 25-1424. -/
def aruCit (j : Nat) : Citation :=
  { domain := ("a.ru"), position := 25 + j, paragraph_index := 0,
    index_in_group := 25 + j, group_size := 1425, window_words := 0 }

/-- The flood response's target citation list. -/
def botCits : List Citation := (List.range 25).map botCit

/-- The flood response's competitor citation list. -/
def aruCits : List Citation := (List.range 1400).map aruCit

/-- The single paragraph the segmenter produces from the flood response. -/
def floodPara : ParagraphData :=
  { text := ("12345 12345"), word_count := 0,
    citations := List.replicate 25 ("botanichka.ru") ++ List.replicate 1400 ("a.ru") }

/-- The analysis-run state `_parse_response` rebuilds from the flood response. -/
def floodState : AnalyzerState :=
  { target_site := ("botanichka.ru")
    all_citations := botCits ++ aruCits
    site_citations := [(("botanichka.ru"), botCits), (("a.ru"), aruCits)]
    total_words := 0
    paragraphs := [floodPara] }

/-! ## Helper lemmas -/

theorem lookup_cons_eq {α β : Type _} [BEq α] (k : α) (e : α × β) (l : List (α × β)) :
    (e :: l).lookup k = if k == e.1 then some e.2 else l.lookup k := by
  cases e with
  | mk a b =>
    show (match k == a with
          | true => some b
          | false => List.lookup k l) = _
    cases h : k == a <;> simp [h]

theorem lookup_mem {α β : Type _} [BEq α] [LawfulBEq α] {l : List (α × β)} {k : α} {v : β}
    (h : l.lookup k = some v) : (k, v) ∈ l := by
  induction l with
  | nil => simp [List.lookup] at h
  | cons e rest ih =>
    rw [lookup_cons_eq] at h
    by_cases hk : k == e.1
    · rw [if_pos hk] at h
      cases h
      have hk' : k = e.1 := by simpa using hk
      cases e
      simp_all
    · rw [if_neg hk] at h
      exact List.mem_cons_of_mem _ (ih h)

theorem lookup_self_of_nodup {α β : Type _} [BEq α] [LawfulBEq α] {l : List (α × β)}
    (hn : (l.map Prod.fst).Nodup) {k : α} {v : β} (h : (k, v) ∈ l) :
    l.lookup k = some v := by
  induction l with
  | nil => simp at h
  | cons e rest ih =>
    simp at hn
    rcases List.mem_cons.mp h with he | hr
    · cases he
      simp [lookup_cons_eq]
    · have hne : k ≠ e.1 := by
        intro hek
        exact hn.1 v (by simpa [hek] using hr)
      rw [lookup_cons_eq, if_neg (by simpa using hne)]
      exact ih hn.2 hr

/-! ## Claim C10: statelessness of `evaluate` across calls -/

/-- C10: the analysis-run state is rebuilt from scratch on every `evaluate`
call; a second call on the same analyzer returns exactly what a fresh
analyzer with the same target returns. -/
theorem claim_c10 (target t1 t2 : String) :
    (evaluate ((evaluate (analyzerInit target) t1).1) t2).2 =
      (evaluate (analyzerInit target) t2).2 := rfl

/-! ## Claim C6: the positional metric -/

/-- C6: `Pos(s) = min(1, (Σ 10·0.5^position)/10)` over the site's citations,
and the contribution of an earlier citation strictly exceeds that of a later
one. -/
theorem claim_c6 :
    (∀ (st : AnalyzerState) (site : String),
        calculate_pos st site =
          min 1 (((lookupCitations st site).map posTerm).sum / 10)) ∧
    (∀ c1 c2 : Citation, c1.position < c2.position → posTerm c2 < posTerm c1) := by
  constructor
  · intro st site
    unfold calculate_pos
    by_cases h : lookupCitations st site = []
    · simp [h]
    · rw [if_neg h, min_comm]
  · intro c1 c2 h
    unfold posTerm
    have hp : ((1 : ℚ) / 2) ^ c2.position < (1 / 2) ^ c1.position :=
      pow_lt_pow_right_of_lt_one₀ (by norm_num) (by norm_num) h
    have h10 : (0 : ℚ) < 10 := by norm_num
    exact (mul_lt_mul_left h10).mpr hp

/-- Witness for C6 at concrete data: a position-0 citation out-contributes a
position-1 citation, and the formula holds on a concretely parsed state. -/
theorem claim_c6_witness :
    posTerm { domain := "a.ru", position := 1, paragraph_index := 0,
              index_in_group := 1, group_size := 2, window_words := 0 } <
      posTerm { domain := "a.ru", position := 0, paragraph_index := 0,
                index_in_group := 0, group_size := 2, window_words := 0 } :=
  claim_c6.2 _ _ (by decide)

/-! ## Claim C9: totality and zero metrics on citation-free input -/

/-- C9: when parsing finds no citations, `evaluate` returns all-zero target
metrics, an empty competitor mapping and no best competitor; and the
`total_words == 0` guard forces Word to 0. -/
theorem claim_c9 :
    (∀ (a : AnalyzerState) (text : String),
      (parse_response a text).site_citations = [] →
        (evaluate a text).2.pos = 0 ∧ (evaluate a text).2.word = 0 ∧
        (evaluate a text).2.citation_quality = 0 ∧
        (evaluate a text).2.total_score = 0 ∧
        (evaluate a text).2.competitors = [] ∧
        (evaluate a text).2.best_site = none) ∧
    (∀ (st : AnalyzerState) (site : String),
      st.total_words = 0 → calculate_word st site = 0) := by
  constructor
  · intro a text h
    have hlook : ∀ site, lookupCitations (parse_response a text) site = [] := by
      intro site
      unfold lookupCitations
      rw [h]
      rfl
    have hpos : ∀ site, calculate_pos (parse_response a text) site = 0 := by
      intro site
      unfold calculate_pos
      rw [hlook, if_pos rfl]
    have hword : ∀ site, calculate_word (parse_response a text) site = 0 := by
      intro site
      unfold calculate_word
      by_cases htw : (parse_response a text).total_words = 0
      · rw [if_pos htw]
      · rw [if_neg htw, hlook, if_pos rfl]
    have hcq : ∀ site, calculate_citation_quality (parse_response a text) site = 0 := by
      intro site
      unfold calculate_citation_quality
      rw [hlook, if_pos rfl]
    have hm : ∀ site, calculate_metrics_for_site (parse_response a text) site =
        { pos := 0, word := 0, citation_quality := 0, total_score := 0 } := by
      intro site
      unfold calculate_metrics_for_site
      rw [hpos, hword, hcq]
      norm_num
    have hr0 : round4 0 = 0 := by
      unfold round4
      norm_num
    refine ⟨?_, ?_, ?_, ?_, ?_, ?_⟩ <;>
      simp [evaluate, hm, h, hr0, bestFold]
  · intro st site h
    unfold calculate_word
    rw [if_pos h]

/-- Witness for C9: a citation-free Russian sentence yields the all-zero
result, and a parsed empty response has `total_words = 0`, forcing Word to 0. -/
theorem claim_c9_witness :
    ((parse_response (analyzerInit ("botanichka.ru")) ("Просто текст без ссылок")).site_citations = [] ∧
      (evaluate (analyzerInit ("botanichka.ru")) ("Просто текст без ссылок")).2.pos = 0 ∧
      (evaluate (analyzerInit ("botanichka.ru")) ("Просто текст без ссылок")).2.competitors = []) ∧
    ((parse_response (analyzerInit ("x.ru")) ("")).total_words = 0 ∧
      calculate_word (parse_response (analyzerInit ("x.ru")) ("")) ("a.ru") = 0) := by
  have h1 : (parse_response (analyzerInit ("botanichka.ru")) ("Просто текст без ссылок")).site_citations = [] := by
    with_unfolding_all decide
  have h2 : (parse_response (analyzerInit ("x.ru")) ("")).total_words = 0 := by
    with_unfolding_all decide
  have hmain := claim_c9.1 (analyzerInit ("botanichka.ru")) ("Просто текст без ссылок") h1
  exact ⟨⟨h1, hmain.1, hmain.2.2.2.2.1⟩, h2, claim_c9.2 _ ("a.ru") h2⟩

/-! ## Claim C3: the citation-line test -/

/-- C3 counterexample: a line with fewer than 5 words but no domain is a
prose line, not a citation line, so the claim's "any line with fewer than
5 words is a citation line" fails on the code. -/
theorem claim_c3_counterexample :
    wordCount (String.data ("hello")) < 5 ∧
    isCitationLine (extract_domains_from_text (String.data ("hello")))
      (wordCount (String.data ("hello"))) = false ∧
    split_into_paragraphs (String.data ("hello")) = [(String.data ("hello"), [])] := by
  refine ⟨by with_unfolding_all decide, by with_unfolding_all decide, by with_unfolding_all decide⟩

/-- C3 amended: a line is a citation line iff it has at least one extracted
domain AND (the domain count is at least one third of the word count, or the
word count is below 5); the rational comparison of the source is the integer
comparison `3·domains ≥ words`. -/
theorem claim_c3 (domains : List (List Char)) (words : Nat) :
    isCitationLine domains words = true ↔
      (domains ≠ [] ∧ (words ≤ 3 * domains.length ∨ words < 5)) := by
  unfold isCitationLine
  rw [Bool.and_eq_true, Bool.or_eq_true]
  constructor
  · rintro ⟨h1, h2⟩
    refine ⟨by simpa [List.isEmpty_iff] using h1, ?_⟩
    rcases h2 with h2 | h2
    · left
      have h2' : (words : ℚ) / 3 ≤ (domains.length : ℚ) := by simpa using of_decide_eq_true h2
      have h3 : (words : ℚ) ≤ 3 * (domains.length : ℚ) := by
        rw [div_le_iff₀ (by norm_num : (0:ℚ) < 3)] at h2'
        linarith
      exact_mod_cast h3
    · right
      exact of_decide_eq_true h2
  · rintro ⟨h1, h2⟩
    refine ⟨by simpa [List.isEmpty_iff] using h1, ?_⟩
    rcases h2 with h2 | h2
    · left
      apply decide_eq_true
      have h3 : (words : ℚ) ≤ 3 * (domains.length : ℚ) := by exact_mod_cast h2
      rw [ge_iff_le, div_le_iff₀ (by norm_num : (0:ℚ) < 3)]
      linarith
    · right
      exact decide_eq_true h2

/-! ## Claim C4: the tokenizer -/

/-- C4 counterexample: `ё` is not in the token class `[A-Za-zА-Яа-я0-9]`, so
it acts as a separator: `tokenize "ёж"` is `["ж"]`, not `["ёж"]`. -/
theorem claim_c4_counterexample :
    tokenize ("ёж") = [("ж")] ∧ tokenize ("ёж") ≠ [("ёж")] ∧
    isTokenChar 'ж' = true ∧ isTokenChar 'ё' = false := by
  refine ⟨by decide, by decide, by decide, by decide⟩

/-! ## Claim C8: citation quality -/

/-- C8: for a site with a non-empty citation list, CitationQuality is the
average raw quality times the solo/group factor plus the uniqueness bonus,
clamped at 1, and the result always lies in [0, 1]. -/
theorem claim_c8 (st : AnalyzerState) (site : String)
    (h : lookupCitations st site ≠ []) :
    (calculate_citation_quality st site =
      min ((((lookupCitations st site).map (fun c =>
          (1 : ℚ) / c.group_size + max 0 ((3 : ℚ) / 10 - 1 / 10 * c.index_in_group) +
            (if 20 < c.window_words then (2 : ℚ) / 10 else 0))).sum /
            ((lookupCitations st site).map (fun c =>
          (1 : ℚ) / c.group_size + max 0 ((3 : ℚ) / 10 - 1 / 10 * c.index_in_group) +
            (if 20 < c.window_words then (2 : ℚ) / 10 else 0))).length) *
          (if (lookupCitations st site).any (fun c => c.group_size = 1) &&
              (lookupCitations st site).any (fun c => decide (1 < c.group_size)) then 1
           else if (lookupCitations st site).any (fun c => c.group_size = 1) then (9 : ℚ) / 10
           else (7 : ℚ) / 10) +
          (if st.site_citations.length = 1 ∧ st.all_citations.length = 1
           then (1 : ℚ) / 10 else 0)) 1) ∧
    0 ≤ calculate_citation_quality st site ∧
    calculate_citation_quality st site ≤ 1 := by
  have heq : calculate_citation_quality st site =
      min ((((lookupCitations st site).map (fun c =>
          (1 : ℚ) / c.group_size + max 0 ((3 : ℚ) / 10 - 1 / 10 * c.index_in_group) +
            (if 20 < c.window_words then (2 : ℚ) / 10 else 0))).sum /
            ((lookupCitations st site).map (fun c =>
          (1 : ℚ) / c.group_size + max 0 ((3 : ℚ) / 10 - 1 / 10 * c.index_in_group) +
            (if 20 < c.window_words then (2 : ℚ) / 10 else 0))).length) *
          (if (lookupCitations st site).any (fun c => c.group_size = 1) &&
              (lookupCitations st site).any (fun c => decide (1 < c.group_size)) then 1
           else if (lookupCitations st site).any (fun c => c.group_size = 1) then (9 : ℚ) / 10
           else (7 : ℚ) / 10) +
          (if st.site_citations.length = 1 ∧ st.all_citations.length = 1
           then (1 : ℚ) / 10 else 0)) 1 := by
    unfold calculate_citation_quality
    rw [if_neg h]
  refine ⟨heq, ?_, ?_⟩
  · rw [heq]
    have hsum : 0 ≤ ((lookupCitations st site).map (fun c =>
        (1 : ℚ) / c.group_size + max 0 ((3 : ℚ) / 10 - 1 / 10 * c.index_in_group) +
          (if 20 < c.window_words then (2 : ℚ) / 10 else 0))).sum := by
      apply List.sum_nonneg
      intro x hx
      rcases List.mem_map.mp hx with ⟨c, _, rfl⟩
      have h1 : (0 : ℚ) ≤ 1 / c.group_size := by positivity
      have h2 : (0 : ℚ) ≤ max 0 ((3 : ℚ) / 10 - 1 / 10 * c.index_in_group) := le_max_left _ _
      have h3 : (0 : ℚ) ≤ (if 20 < c.window_words then (2 : ℚ) / 10 else 0) := by
        split <;> norm_num
      linarith
    rw [le_min_iff]
    refine ⟨?_, by norm_num⟩
    have havg : 0 ≤ ((lookupCitations st site).map (fun c =>
        (1 : ℚ) / c.group_size + max 0 ((3 : ℚ) / 10 - 1 / 10 * c.index_in_group) +
          (if 20 < c.window_words then (2 : ℚ) / 10 else 0))).sum /
          ((lookupCitations st site).map (fun c =>
        (1 : ℚ) / c.group_size + max 0 ((3 : ℚ) / 10 - 1 / 10 * c.index_in_group) +
          (if 20 < c.window_words then (2 : ℚ) / 10 else 0))).length := by
      apply div_nonneg hsum
      positivity
    have hf : (0 : ℚ) ≤ (if (lookupCitations st site).any (fun c => c.group_size = 1) &&
          (lookupCitations st site).any (fun c => decide (1 < c.group_size)) then 1
        else if (lookupCitations st site).any (fun c => c.group_size = 1) then (9 : ℚ) / 10
        else (7 : ℚ) / 10) := by
      split
      · norm_num
      · split <;> norm_num
    have hb : (0 : ℚ) ≤ (if st.site_citations.length = 1 ∧ st.all_citations.length = 1
        then (1 : ℚ) / 10 else 0) := by
      split <;> norm_num
    have := mul_nonneg havg hf
    linarith
  · rw [heq]
    exact min_le_right _ _

/-- Witness for C8 at a concretely parsed two-site response. -/
theorem claim_c8_witness :
    lookupCitations (parse_response (analyzerInit ("botanichka.ru"))
        ("Растения хорошо описаны.\nbotanichka.ru\n\nКонкурент тоже пишет о цветах.\nflowers.ru"))
        ("botanichka.ru") ≠ [] ∧
    0 ≤ calculate_citation_quality (parse_response (analyzerInit ("botanichka.ru"))
        ("Растения хорошо описаны.\nbotanichka.ru\n\nКонкурент тоже пишет о цветах.\nflowers.ru"))
        ("botanichka.ru") ∧
    calculate_citation_quality (parse_response (analyzerInit ("botanichka.ru"))
        ("Растения хорошо описаны.\nbotanichka.ru\n\nКонкурент тоже пишет о цветах.\nflowers.ru"))
        ("botanichka.ru") ≤ 1 := by
  have h : lookupCitations (parse_response (analyzerInit ("botanichka.ru"))
      ("Растения хорошо описаны.\nbotanichka.ru\n\nКонкурент тоже пишет о цветах.\nflowers.ru"))
      ("botanichka.ru") ≠ [] := by
    with_unfolding_all decide
  exact ⟨h, (claim_c8 _ _ h).2.1, (claim_c8 _ _ h).2.2⟩

/-! ## Claim C4 (amended): the tokenizer as maximal runs -/

theorem tokenRuns_nil (fuel : Nat) : tokenRuns fuel [] = [] := by
  cases fuel <;> rfl

theorem dropWhile_head_false {α : Type _} {p : α → Bool} :
    ∀ {l : List α} {d : α} {t : List α}, l.dropWhile p = d :: t → p d = false := by
  intro l
  induction l with
  | nil => intro d t h; simp [List.dropWhile] at h
  | cons c cs ih =>
    intro d t h
    rw [List.dropWhile_cons] at h
    split at h
    · exact ih h
    · cases h
      simp_all

theorem tokenRuns_eq_splitOnP (fuel : Nat) :
    ∀ l : List Char, l.length ≤ fuel →
      tokenRuns fuel l =
        ((l.splitOnP (fun c => !isTokenChar c)).filter (fun r => !r.isEmpty)) := by
  induction fuel with
  | zero =>
    intro l hl
    rw [Nat.le_zero, List.length_eq_zero] at hl
    subst hl
    simp [tokenRuns, List.splitOnP_nil]
  | succ fuel ih =>
    intro l hl
    match l with
    | [] => simp [tokenRuns, List.splitOnP_nil]
    | c :: rest =>
      rw [show tokenRuns (fuel + 1) (c :: rest) =
          (if isTokenChar c then
            (c :: List.takeWhile isTokenChar rest) ::
              tokenRuns fuel (List.dropWhile isTokenChar rest)
          else tokenRuns fuel rest) from rfl]
      by_cases hc : isTokenChar c
      · rw [if_pos hc]
        have hsplit : c :: rest =
            (c :: rest.takeWhile isTokenChar) ++ rest.dropWhile isTokenChar := by
          simp [List.takeWhile_append_dropWhile]
        have hrunall : ∀ x ∈ c :: rest.takeWhile isTokenChar,
            ¬((fun c => !isTokenChar c) x = true) := by
          intro x hx
          rcases List.mem_cons.mp hx with rfl | hx'
          · simp [hc]
          · have hx2 := List.mem_takeWhile_imp hx'
            simp [hx2]
        have hdw : (rest.dropWhile isTokenChar).length ≤ fuel := by
          have h1 : (rest.dropWhile isTokenChar).length ≤ rest.length :=
            (List.dropWhile_sublist _).length_le
          have h2 : rest.length ≤ fuel := by
            simpa using Nat.succ_le_succ_iff.mp hl
          omega
        match hrest : rest.dropWhile isTokenChar with
        | [] =>
          conv_rhs => rw [hsplit, hrest]
          rw [List.append_nil, List.splitOnP_eq_single _ _ hrunall]
          simp [tokenRuns_nil]
        | d :: t =>
          have hd : (fun c => !isTokenChar c) d = true := by
            simp [dropWhile_head_false hrest]
          conv_rhs => rw [hsplit, hrest]
          rw [List.splitOnP_first _ _ hrunall d hd t]
          have hdw' : (d :: t).length ≤ fuel := by
            rw [hrest] at hdw
            exact hdw
          rw [ih (d :: t) hdw']
          rw [List.splitOnP_cons, if_pos hd]
          simp
      · rw [if_neg hc]
        rw [List.splitOnP_cons, if_pos (by simp [hc])]
        have h2 : rest.length ≤ fuel := by
          simpa using Nat.succ_le_succ_iff.mp hl
        rw [ih rest h2]
        simp

/-- C4 amended: `tokenize` returns exactly the maximal runs of the class
`[A-Za-zА-Яа-я0-9]` of the lowercased text — Latin letters, digits, and the
contiguous Cyrillic ranges only, so ё (outside the ranges) separates tokens. -/
theorem claim_c4 (text : String) :
    tokenize text =
      ((((text.data.map pyLowerChar).splitOnP (fun c => !isTokenChar c)).filter
        (fun r => !r.isEmpty)).map String.mk) := by
  show List.map String.mk (tokenRuns ((text.data.map pyLowerChar).length + 1)
      (text.data.map pyLowerChar)) = _
  rw [tokenRuns_eq_splitOnP ((text.data.map pyLowerChar).length + 1)
    (text.data.map pyLowerChar) (Nat.le_succ _)]

/-! ## Claim C1: the trailing-citation-block rule -/

theorem pyStrip_eq_nil_all_ws {l : List Char} (h : pyStrip l = []) :
    ∀ x ∈ l, isPyWs x = true := by
  unfold pyStrip at h
  rw [List.reverse_eq_nil_iff, List.dropWhile_eq_nil_iff] at h
  have hA : ∀ x ∈ l.dropWhile isPyWs, isPyWs x = true := by
    intro x hx
    exact h x (by simpa using hx)
  intro x hx
  have hx' : x ∈ l.takeWhile isPyWs ++ l.dropWhile isPyWs := by
    rw [List.takeWhile_append_dropWhile]
    exact hx
  rcases List.mem_append.mp hx' with h1 | h2
  · exact List.mem_takeWhile_imp h1
  · exact hA x h2

theorem pyStrip_has_nonws {raw : List Char} (h : pyStrip raw ≠ []) :
    ∃ x ∈ pyStrip raw, isPyWs x = false := by
  unfold pyStrip at h ⊢
  match hcase : (raw.dropWhile isPyWs).reverse.dropWhile isPyWs with
  | [] => simp [hcase] at h
  | d :: t =>
    have hd : isPyWs d = false := dropWhile_head_false hcase
    refine ⟨d, ?_, hd⟩
    simp [hcase]

theorem joinSpace_mem {x : Char} : ∀ {ls : List (List Char)} {L : List Char},
    L ∈ ls → x ∈ L → x ∈ joinSpace ls := by
  intro ls
  induction ls with
  | nil => intro L h; simp at h
  | cons a rest ih =>
    intro L hL hx
    match rest with
    | [] =>
      rcases List.mem_cons.mp hL with rfl | h
      · simpa [joinSpace] using hx
      · simp at h
    | b :: rest' =>
      rw [show joinSpace (a :: b :: rest') = a ++ ' ' :: joinSpace (b :: rest') from rfl]
      rcases List.mem_cons.mp hL with rfl | h
      · exact List.mem_append_left _ hx
      · exact List.mem_append_right _ (List.mem_cons_of_mem _ (ih h hx))

theorem lineStep_inv {P : List Char → Prop}
    (hP : ∀ raw, pyStrip raw ≠ [] → P (pyStrip raw)) :
    ∀ (lines : List (List Char)) (acc : List (List Char) × List (List Char)),
      (∀ L ∈ acc.1, P L) → ∀ L ∈ (lines.foldl lineStep acc).1, P L := by
  intro lines
  induction lines with
  | nil => intro acc hacc; exact hacc
  | cons raw rest ih =>
    intro acc hacc
    apply ih
    unfold lineStep
    by_cases h0 : pyStrip raw = []
    · rw [if_pos h0]; exact hacc
    · rw [if_neg h0]
      by_cases hcit : isCitationLine (extract_domains_from_text (pyStrip raw))
          (wordCount (pyStrip raw)) = true
      · rw [if_pos hcit]; exact hacc
      · rw [if_neg (by simpa using hcit)]
        intro L hL
        rcases List.mem_append.mp hL with h | h
        · exact hacc L h
        · rcases List.mem_singleton.mp h with rfl
          exact hP raw h0

theorem paraStep_inv :
    ∀ (paras : List (List Char)) (acc : List (List Char × List (List Char))),
      (∀ e ∈ acc, pyStrip e.1 ≠ []) →
      ∀ e ∈ paras.foldl paraStep acc, pyStrip e.1 ≠ [] := by
  intro paras
  induction paras with
  | nil => intro acc hacc; exact hacc
  | cons para rest ih =>
    intro acc hacc
    apply ih
    unfold paraStep
    by_cases h0 : pyStrip para = []
    · rw [if_pos h0]; exact hacc
    · rw [if_neg h0]
      by_cases htl : ((splitOnChar '\n' (pyStrip para)).foldl lineStep ([], [])).1 = []
      · rw [if_pos htl]; exact hacc
      · rw [if_neg htl]
        intro e he
        rcases List.mem_append.mp he with h | h
        · exact hacc e h
        · rcases List.mem_singleton.mp h with rfl
          intro hcontra
          have hall := pyStrip_eq_nil_all_ws hcontra
          match hcase : ((splitOnChar '\n' (pyStrip para)).foldl lineStep ([], [])).1 with
          | [] => exact htl hcase
          | L :: tl =>
            have hPL : ∃ x ∈ L, isPyWs x = false := by
              have := lineStep_inv (P := fun L => ∃ x ∈ L, isPyWs x = false)
                (fun raw h => pyStrip_has_nonws h)
                (splitOnChar '\n' (pyStrip para)) ([], []) (by simp)
              exact this L (by rw [hcase]; simp)
            rcases hPL with ⟨x, hxL, hx⟩
            have hxj : x ∈ joinSpace ((splitOnChar '\n' (pyStrip para)).foldl lineStep ([], [])).1 := by
              rw [hcase]
              exact joinSpace_mem (List.mem_cons_self L tl) hxL
            rw [hall x hxj] at hx
            simp at hx

theorem mergeFold_id :
    ∀ (l : List (List Char × List (List Char))) (acc : List (List Char × List (List Char))),
      (∀ e ∈ l, pyStrip e.1 ≠ []) → l.foldl mergeStep acc = acc ++ l := by
  intro l
  induction l with
  | nil => intro acc _; simp
  | cons e rest ih =>
    intro acc h
    have he : pyStrip e.1 ≠ [] := h e (List.mem_cons_self _ _)
    have hstep : mergeStep acc e = acc ++ [e] := by
      unfold mergeStep
      cases hlast : acc.getLast? with
      | none => rfl
      | some prev =>
        show (if pyStrip e.1 = [] ∧ e.2 ≠ [] then
            acc.dropLast ++ [(prev.1, prev.2 ++ e.2)] else acc ++ [e]) = acc ++ [e]
        rw [if_neg (show ¬(pyStrip e.1 = [] ∧ e.2 ≠ []) from fun hc => he hc.1)]
    show List.foldl mergeStep (mergeStep acc e) rest = _
    rw [hstep, ih (acc ++ [e]) (fun x hx => h x (List.mem_cons_of_mem _ hx))]
    simp

/-- C1: the merge-into-previous-paragraph post-process of
`_split_into_paragraphs` is unreachable — the first loop only emits
paragraphs with non-blank prose, so the post-process is the identity — and on
the spec's own example a blank-prose references block is dropped entirely:
its citations never reach the result, the target's Pos stays 0, and no
competitor is recorded. -/
theorem claim_c1 :
    (∀ text : List Char,
      split_into_paragraphs text =
        (splitBlank ((pyStrip text).length + 1) [] (pyStrip text)).foldl paraStep []) ∧
    split_into_paragraphs (String.data ("some prose\n\nbotanichka.ru")) =
      [(String.data ("some prose"), [])] ∧
    (calculate_metrics ("some prose\n\nbotanichka.ru") ("botanichka.ru")).pos = 0 ∧
    (calculate_metrics ("some prose\n\nbotanichka.ru") ("botanichka.ru")).competitors = [] := by
  refine ⟨?_, ?_, ?_, ?_⟩
  · intro text
    unfold split_into_paragraphs
    have hinv := paraStep_inv
      (splitBlank ((pyStrip text).length + 1) [] (pyStrip text)) [] (by simp)
    rw [mergeFold_id _ [] hinv]
    simp
  · with_unfolding_all decide
  · with_unfolding_all decide
  · with_unfolding_all decide

/-! ## Claim C7: the word-share metric -/

theorem paraPush_lookup (m : List (Nat × List Citation)) (i : Nat) (c : Citation) (j : Nat) :
    ((paraPush m i c).lookup j).getD [] =
      if i = j then ((m.lookup j).getD []) ++ [c] else (m.lookup j).getD [] := by
  induction m with
  | nil =>
    show (([(i, [c])] : List (Nat × List Citation)).lookup j).getD [] = _
    rw [lookup_cons_eq]
    by_cases hij : i = j
    · rw [if_pos (by simpa using hij.symm), if_pos hij]
      simp [List.lookup]
    · rw [if_neg (by simpa using fun h => hij h.symm), if_neg hij]
  | cons e rest ih =>
    unfold paraPush
    by_cases hk : e.1 = i
    · rw [if_pos hk, lookup_cons_eq]
      by_cases hj : j = e.1
      · have hij : i = j := by omega
        rw [if_pos (by simpa using hj), if_pos hij, lookup_cons_eq,
          if_pos (by simpa using hj)]
        simp
      · have hij : ¬i = j := by omega
        rw [if_neg (by simpa using hj), if_neg hij, lookup_cons_eq,
          if_neg (by simpa using hj)]
    · rw [if_neg hk, lookup_cons_eq]
      by_cases hj : j = e.1
      · have hij : ¬i = j := by omega
        rw [if_pos (by simpa using hj), if_neg hij, lookup_cons_eq,
          if_pos (by simpa using hj)]
      · have hb : (j == e.1) = false := by simpa using hj
        rw [if_neg (by simp [hb]), ih, lookup_cons_eq]
        simp [hb]

theorem groupByPara_lookup (cs : List Citation) (j : Nat) :
    (((groupByPara cs).lookup j).getD []) =
      cs.filter (fun c => c.paragraph_index = j) := by
  induction cs using List.reverseRecOn with
  | nil => simp [groupByPara, List.lookup]
  | append_singleton cs c ih =>
    unfold groupByPara at ih ⊢
    rw [List.foldl_append]
    simp only [List.foldl_cons, List.foldl_nil]
    rw [paraPush_lookup, List.filter_append]
    by_cases hc : c.paragraph_index = j
    · rw [if_pos hc, ih]
      simp [hc]
    · rw [if_neg hc, ih]
      simp [hc]

theorem paraPush_keys_mem (m : List (Nat × List Citation)) (i : Nat) (c : Citation) (j : Nat) :
    j ∈ (paraPush m i c).map Prod.fst ↔ j ∈ m.map Prod.fst ∨ j = i := by
  induction m with
  | nil => simp [paraPush]
  | cons e rest ih =>
    unfold paraPush
    by_cases hk : e.1 = i
    · rw [if_pos hk]
      subst hk
      simp
      tauto
    · rw [if_neg hk]
      simp only [List.map_cons, List.mem_cons]
      rw [ih]
      tauto

theorem paraPush_keys_nodup (m : List (Nat × List Citation)) (i : Nat) (c : Citation)
    (h : (m.map Prod.fst).Nodup) : ((paraPush m i c).map Prod.fst).Nodup := by
  induction m with
  | nil => simp [paraPush]
  | cons e rest ih =>
    unfold paraPush
    simp only [List.map_cons, List.nodup_cons] at h
    by_cases hk : e.1 = i
    · rw [if_pos hk]
      simp only [List.map_cons, List.nodup_cons]
      exact h
    · rw [if_neg hk]
      simp only [List.map_cons, List.nodup_cons]
      refine ⟨?_, ih h.2⟩
      intro hmem
      rcases (paraPush_keys_mem rest i c e.1).mp hmem with hm | he
      · exact h.1 hm
      · exact hk he

theorem groupByPara_keys_nodup (cs : List Citation) :
    ((groupByPara cs).map Prod.fst).Nodup := by
  induction cs using List.reverseRecOn with
  | nil => simp [groupByPara]
  | append_singleton cs c ih =>
    unfold groupByPara at ih ⊢
    rw [List.foldl_append]
    simp only [List.foldl_cons, List.foldl_nil]
    exact paraPush_keys_nodup _ _ _ ih

theorem groupByPara_keys_mem (cs : List Citation) (j : Nat) :
    j ∈ (groupByPara cs).map Prod.fst ↔ ∃ c ∈ cs, c.paragraph_index = j := by
  induction cs using List.reverseRecOn with
  | nil => simp [groupByPara]
  | append_singleton cs c ih =>
    unfold groupByPara at ih ⊢
    rw [List.foldl_append]
    simp only [List.foldl_cons, List.foldl_nil]
    rw [paraPush_keys_mem, ih]
    constructor
    · rintro (⟨d, hd, rfl⟩ | h)
      · exact ⟨d, List.mem_append_left _ hd, rfl⟩
      · exact ⟨c, List.mem_append_right _ (List.mem_singleton_self c), h.symm⟩
    · rintro ⟨d, hd, rfl⟩
      rcases List.mem_append.mp hd with h | h
      · exact Or.inl ⟨d, h, rfl⟩
      · rcases List.mem_singleton.mp h with rfl
        exact Or.inr rfl

theorem groupByPara_entry_eq (cs : List Citation) {e : Nat × List Citation}
    (he : e ∈ groupByPara cs) :
    e.2 = cs.filter (fun c => c.paragraph_index = e.1) := by
  have hl := lookup_self_of_nodup (groupByPara_keys_nodup cs)
    (show (e.1, e.2) ∈ groupByPara cs from he)
  have := groupByPara_lookup cs e.1
  rw [hl] at this
  simpa using this

theorem getD_mem_of_lt (l : List ParagraphData) (i : Nat) (h : i < l.length) :
    l.getD i default ∈ l := by
  rw [List.getD_eq_getElem l default h]
  exact List.getElem_mem h

theorem calculate_word_spec (st : AnalyzerState) (site : String) (hwf : stateWF st) :
    calculate_word st site =
      if st.total_words = 0 then 0
      else min 1 (specWordSum st site / st.total_words) := by
  obtain ⟨hnodup, hidx, hcount, hmem⟩ := hwf
  by_cases htw : st.total_words = 0
  · rw [if_pos htw]
    unfold calculate_word
    rw [if_pos htw]
  · rw [if_neg htw]
    unfold calculate_word
    rw [if_neg htw]
    by_cases hcs : lookupCitations st site = []
    · rw [if_pos hcs]
      have hS : specWordSum st site = 0 := by
        unfold specWordSum
        have hfilter : (List.range st.paragraphs.length).filter (fun i =>
            0 < (st.paragraphs.getD i default).citations.count site) = [] := by
          rw [List.filter_eq_nil_iff]
          intro i hi
          simp only [decide_eq_true_eq]
          intro hpos
          have himem : i < st.paragraphs.length := List.mem_range.mp hi
          have hsite : site ∈ (st.paragraphs.getD i default).citations :=
            List.count_pos_iff.mp hpos
          have hsome := hmem _ (getD_mem_of_lt st.paragraphs i himem) site hsite
          unfold lookupCitations at hcs
          match hlk : st.site_citations.lookup site with
          | none => rw [hlk] at hsome; simp at hsome
          | some cs =>
            rw [hlk] at hcs
            subst hcs
            have hentry := lookup_mem hlk
            have hc0 := hcount _ hentry i himem
            simp only [List.filter_nil, List.length_nil] at hc0
            omega
        rw [hfilter]
        simp
      rw [hS]
      norm_num
    · rw [if_neg hcs]
      have hlk : st.site_citations.lookup site = some (lookupCitations st site) := by
        unfold lookupCitations
        match hl : st.site_citations.lookup site with
        | none => unfold lookupCitations at hcs; rw [hl] at hcs; simp at hcs
        | some cs => rfl
      have hentry : (site, lookupCitations st site) ∈ st.site_citations := lookup_mem hlk
      set cs := lookupCitations st site with hcsdef
      -- step 1: each group entry is the filtered sublist for its index
      have hmapeq : ((groupByPara cs).map (fun g =>
          if g.1 < st.paragraphs.length then
            (if (st.paragraphs.getD g.1 default).citations.length = 0 then 0
             else ((st.paragraphs.getD g.1 default).word_count : ℚ) * g.2.length /
               (st.paragraphs.getD g.1 default).citations.length)
          else 0)) = ((groupByPara cs).map (fun g =>
          if g.1 < st.paragraphs.length then
            (if (st.paragraphs.getD g.1 default).citations.length = 0 then 0
             else ((st.paragraphs.getD g.1 default).word_count : ℚ) *
               (cs.filter (fun c => c.paragraph_index = g.1)).length /
               (st.paragraphs.getD g.1 default).citations.length)
          else 0)) := by
        apply List.map_congr_left
        intro g hg
        rw [groupByPara_entry_eq cs hg]
      -- step 2: turn the group sum into a sum over the key list
      have hkeysum : ((groupByPara cs).map (fun g =>
          if g.1 < st.paragraphs.length then
            (if (st.paragraphs.getD g.1 default).citations.length = 0 then 0
             else ((st.paragraphs.getD g.1 default).word_count : ℚ) *
               (cs.filter (fun c => c.paragraph_index = g.1)).length /
               (st.paragraphs.getD g.1 default).citations.length)
          else 0)) =
        ((groupByPara cs).map Prod.fst).map (fun j =>
          if j < st.paragraphs.length then
            (if (st.paragraphs.getD j default).citations.length = 0 then 0
             else ((st.paragraphs.getD j default).word_count : ℚ) *
               (cs.filter (fun c => c.paragraph_index = j)).length /
               (st.paragraphs.getD j default).citations.length)
          else 0) := by
        rw [List.map_map]
        rfl
      -- step 3: the key list is a permutation of the spec's filtered range
      have hperm : ((groupByPara cs).map Prod.fst).Perm
          ((List.range st.paragraphs.length).filter (fun i =>
            0 < (st.paragraphs.getD i default).citations.count site)) := by
        rw [List.perm_ext_iff_of_nodup (groupByPara_keys_nodup cs)
          ((List.nodup_range _).filter _)]
        intro j
        rw [groupByPara_keys_mem]
        rw [List.mem_filter, List.mem_range]
        constructor
        · rintro ⟨c, hc, rfl⟩
          have hlt := hidx _ hentry c hc
          refine ⟨hlt, ?_⟩
          have := hcount _ hentry c.paragraph_index hlt
          simp only [decide_eq_true_eq]
          rw [← this]
          have : c ∈ cs.filter (fun d => d.paragraph_index = c.paragraph_index) :=
            List.mem_filter.mpr ⟨hc, by simp⟩
          exact List.length_pos.mpr (List.ne_nil_of_mem this)
        · rintro ⟨hlt, hpos⟩
          simp only [decide_eq_true_eq] at hpos
          have := hcount _ hentry j hlt
          rw [← this] at hpos
          have hne : cs.filter (fun c => c.paragraph_index = j) ≠ [] := by
            intro hcontra
            rw [hcontra] at hpos
            simp at hpos
          rcases List.exists_mem_of_ne_nil _ hne with ⟨c, hcmem⟩
          rcases List.mem_filter.mp hcmem with ⟨hccs, hcj⟩
          exact ⟨c, hccs, by simpa using hcj⟩
      -- step 4: on the filtered range the code term is the spec term
      have hfinal : (((List.range st.paragraphs.length).filter (fun i =>
            0 < (st.paragraphs.getD i default).citations.count site)).map (fun j =>
          if j < st.paragraphs.length then
            (if (st.paragraphs.getD j default).citations.length = 0 then 0
             else ((st.paragraphs.getD j default).word_count : ℚ) *
               (cs.filter (fun c => c.paragraph_index = j)).length /
               (st.paragraphs.getD j default).citations.length)
          else 0)).sum = specWordSum st site := by
        unfold specWordSum
        congr 1
        apply List.map_congr_left
        intro j hj
        rcases List.mem_filter.mp hj with ⟨hjr, hjc⟩
        have hlt : j < st.paragraphs.length := List.mem_range.mp hjr
        simp only [decide_eq_true_eq] at hjc
        rw [if_pos hlt]
        have hcnt := hcount _ hentry j hlt
        have hslots : (st.paragraphs.getD j default).citations.length ≠ 0 := by
          intro h0
          have hle := List.count_le_length site (st.paragraphs.getD j default).citations
          omega
        rw [if_neg hslots, hcnt]
      rw [hmapeq, hkeysum, (hperm.map _).sum_eq, hfinal, min_comm]
  

theorem calculate_word_bounds (st : AnalyzerState) (site : String) :
    0 ≤ calculate_word st site ∧ calculate_word st site ≤ 1 := by
  unfold calculate_word
  by_cases htw : st.total_words = 0
  · rw [if_pos htw]
    norm_num
  · rw [if_neg htw]
    by_cases hcs : lookupCitations st site = []
    · rw [if_pos hcs]
      norm_num
    · rw [if_neg hcs]
      have hta : (0 : ℚ) ≤ ((groupByPara (lookupCitations st site)).map (fun g =>
          if g.1 < st.paragraphs.length then
            (if (st.paragraphs.getD g.1 default).citations.length = 0 then 0
             else ((st.paragraphs.getD g.1 default).word_count : ℚ) * g.2.length /
               (st.paragraphs.getD g.1 default).citations.length)
          else 0)).sum := by
        apply List.sum_nonneg
        intro x hx
        rcases List.mem_map.mp hx with ⟨g, _, rfl⟩
        split
        · split
          · norm_num
          · positivity
        · norm_num
      have htwq : (0 : ℚ) < st.total_words := by
        exact_mod_cast Nat.pos_of_ne_zero htw
      constructor
      · apply le_min (div_nonneg hta htwq.le) (by norm_num)
      · exact min_le_right _ _

theorem paragraph_share_sum (p : ParagraphData) (h : p.citations ≠ []) :
    ((p.citations.dedup).map (fun s =>
      ((p.word_count : ℚ) * (p.citations.count s)) / p.citations.length)).sum =
      p.word_count := by
  have hL : ((p.citations.length : ℚ)) ≠ 0 := by
    have : p.citations.length ≠ 0 := by
      intro h0
      exact h (List.length_eq_zero.mp h0)
    exact_mod_cast this
  have hcongr : (p.citations.dedup).map (fun s =>
      ((p.word_count : ℚ) * (p.citations.count s)) / p.citations.length) =
    (p.citations.dedup).map (fun s =>
      ((p.word_count : ℚ) / p.citations.length) * (p.citations.count s : ℚ)) := by
    apply List.map_congr_left
    intro s _
    field_simp
  rw [hcongr, List.sum_map_mul_left]
  have hcast : ((p.citations.dedup).map (fun s => (p.citations.count s : ℚ))).sum =
      ((p.citations.dedup.map (p.citations.count)).sum : ℕ) := by
    rw [Nat.cast_list_sum, List.map_map]
    rfl
  rw [hcast, List.sum_map_count_dedup_eq_length]
  field_simp

/-- C7: under the §3 invariants of the analysis-run state, Word(s) is exactly
the spec formula — `min(1, (Σ over paragraphs containing s of
word_count × count / slots) / total_words)` with the `total_words = 0`
guard — Word(s) always lies in [0, 1], and within one paragraph the
attributed word-shares of the cited sites sum to the paragraph's word count. -/
theorem claim_c7 :
    (∀ (st : AnalyzerState) (site : String), stateWF st →
      (calculate_word st site =
        if st.total_words = 0 then 0
        else min 1 (specWordSum st site / st.total_words)) ∧
      0 ≤ calculate_word st site ∧ calculate_word st site ≤ 1) ∧
    (∀ p : ParagraphData, p.citations ≠ [] →
      ((p.citations.dedup).map (fun s =>
        ((p.word_count : ℚ) * (p.citations.count s)) / p.citations.length)).sum =
        p.word_count) := by
  exact ⟨fun st site hwf =>
    ⟨calculate_word_spec st site hwf,
     (calculate_word_bounds st site).1, (calculate_word_bounds st site).2⟩,
    paragraph_share_sum⟩

/-- Witness for C7: the invariants hold on a concretely parsed response and
the conclusions follow there; the share-sum is checked on its first paragraph. -/
theorem claim_c7_witness :
    (stateWF (parse_response (analyzerInit ("botanichka.ru"))
        ("Растения хорошо описаны.\nbotanichka.ru flowers.ru\n\nКонкурент пишет.\nflowers.ru")) ∧
      0 ≤ calculate_word (parse_response (analyzerInit ("botanichka.ru"))
        ("Растения хорошо описаны.\nbotanichka.ru flowers.ru\n\nКонкурент пишет.\nflowers.ru"))
        ("flowers.ru") ∧
      calculate_word (parse_response (analyzerInit ("botanichka.ru"))
        ("Растения хорошо описаны.\nbotanichka.ru flowers.ru\n\nКонкурент пишет.\nflowers.ru"))
        ("flowers.ru") ≤ 1) ∧
    ((ParagraphData.mk ("Растения хорошо описаны.") 3
        [("botanichka.ru"), ("flowers.ru")]).citations ≠ [] ∧
      (((ParagraphData.mk ("Растения хорошо описаны.") 3
        [("botanichka.ru"), ("flowers.ru")]).citations.dedup).map
          (fun s => (((ParagraphData.mk ("Растения хорошо описаны.") 3
            [("botanichka.ru"), ("flowers.ru")]).word_count : ℚ) *
            ((ParagraphData.mk ("Растения хорошо описаны.") 3
              [("botanichka.ru"), ("flowers.ru")]).citations.count s)) /
            (ParagraphData.mk ("Растения хорошо описаны.") 3
              [("botanichka.ru"), ("flowers.ru")]).citations.length)).sum =
        (ParagraphData.mk ("Растения хорошо описаны.") 3
          [("botanichka.ru"), ("flowers.ru")]).word_count) := by
  have hwf : stateWF (parse_response (analyzerInit ("botanichka.ru"))
      ("Растения хорошо описаны.\nbotanichka.ru flowers.ru\n\nКонкурент пишет.\nflowers.ru")) := by
    with_unfolding_all decide
  have hp : (ParagraphData.mk ("Растения хорошо описаны.") 3
      [("botanichka.ru"), ("flowers.ru")]).citations ≠ [] := by
    decide
  have hmain := claim_c7.1 (parse_response (analyzerInit ("botanichka.ru"))
      ("Растения хорошо описаны.\nbotanichka.ru flowers.ru\n\nКонкурент пишет.\nflowers.ru"))
      ("flowers.ru") hwf
  have hshare := claim_c7.2 (ParagraphData.mk ("Растения хорошо описаны.") 3
      [("botanichka.ru"), ("flowers.ru")]) hp
  exact ⟨⟨hwf, hmain.2.1, hmain.2.2⟩, hp, hshare⟩

/-! ## Claim C5: self-similarity of the TF-IDF engine -/

theorem lookup_isSome_iff_mem_keys {α β : Type _} [BEq α] [LawfulBEq α]
    (v : List (α × β)) (t : α) :
    (v.lookup t).isSome = true ↔ t ∈ v.map Prod.fst := by
  induction v with
  | nil => simp [List.lookup]
  | cons e rest ih =>
    rw [lookup_cons_eq]
    by_cases h : t = e.1
    · rw [if_pos (by simpa using h)]
      simp [h]
    · rw [if_neg (by simpa using h)]
      simp only [List.map_cons, List.mem_cons]
      rw [ih]
      exact ⟨Or.inr, fun hh => hh.elim (fun h1 => absurd h1 h) id⟩

theorem lookup_append_left {α β : Type _} [BEq α] [LawfulBEq α]
    (v w : List (α × β)) (t : α) (h : (v.lookup t).isSome = true) :
    ((v ++ w).lookup t) = v.lookup t := by
  induction v with
  | nil => simp [List.lookup] at h
  | cons e rest ih =>
    rw [List.cons_append, lookup_cons_eq, lookup_cons_eq]
    by_cases he : (t == e.1) = true
    · rw [if_pos he, if_pos he]
    · rw [if_neg he, if_neg he]
      apply ih
      rw [lookup_cons_eq, if_neg he] at h
      exact h

theorem vocabInsert_inv {v : List (String × Nat)} (tok : String) (h : VocabInv v) :
    VocabInv (vocabInsert v tok) := by
  unfold vocabInsert
  by_cases hs : (v.lookup tok).isSome = true
  · rw [if_pos hs]
    exact h
  · rw [if_neg hs]
    obtain ⟨hk, hv, hb⟩ := h
    have htok : tok ∉ v.map Prod.fst := by
      rw [← lookup_isSome_iff_mem_keys]
      simpa using hs
    refine ⟨?_, ?_, ?_⟩
    · rw [List.map_append]
      apply List.Nodup.append hk (by simp)
      intro x hx hx2
      simp at hx2
      subst hx2
      exact htok hx
    · rw [List.map_append]
      apply List.Nodup.append hv (by simp)
      intro x hx hx2
      simp at hx2
      subst hx2
      rcases List.mem_map.mp hx with ⟨e, he, hsnd⟩
      have := hb e he
      omega
    · intro e he
      rw [List.length_append]
      rcases List.mem_append.mp he with h1 | h2
      · have := hb e h1
        simp
        omega
      · simp at h2
        subst h2
        simp

theorem vocabFold_doc_inv (doc : List String) :
    ∀ v : List (String × Nat), VocabInv v → VocabInv (doc.foldl vocabInsert v) := by
  induction doc with
  | nil => intro v h; exact h
  | cons t rest ih => intro v h; exact ih _ (vocabInsert_inv t h)

theorem build_vocabulary_inv (corpus : List (List String)) :
    VocabInv (build_vocabulary corpus) := by
  unfold build_vocabulary
  have : ∀ (cs : List (List String)) (v : List (String × Nat)), VocabInv v →
      VocabInv (cs.foldl (fun vocab doc => doc.foldl vocabInsert vocab) v) := by
    intro cs
    induction cs with
    | nil => intro v h; exact h
    | cons d rest ih => intro v h; exact ih _ (vocabFold_doc_inv d v h)
  exact this _ [] ⟨by simp, by simp, by simp⟩

theorem vocabInsert_mono {v : List (String × Nat)} {t : String} (tok : String)
    (h : (v.lookup t).isSome = true) :
    ((vocabInsert v tok).lookup t).isSome = true := by
  unfold vocabInsert
  by_cases hs : (v.lookup tok).isSome = true
  · rw [if_pos hs]
    exact h
  · rw [if_neg hs, lookup_append_left _ _ _ h]
    exact h

theorem vocabInsert_self (v : List (String × Nat)) (tok : String) :
    ((vocabInsert v tok).lookup tok).isSome = true := by
  unfold vocabInsert
  by_cases hs : (v.lookup tok).isSome = true
  · rw [if_pos hs]
    exact hs
  · rw [if_neg hs, lookup_isSome_iff_mem_keys]
    simp

theorem vocabFold_mono (doc : List String) :
    ∀ (v : List (String × Nat)) (t : String), (v.lookup t).isSome = true →
      ((doc.foldl vocabInsert v).lookup t).isSome = true := by
  induction doc with
  | nil => intro v t h; exact h
  | cons tok rest ih => intro v t h; exact ih _ _ (vocabInsert_mono tok h)

theorem vocabFold_complete (doc : List String) :
    ∀ (v : List (String × Nat)) (tok : String), tok ∈ doc →
      ((doc.foldl vocabInsert v).lookup tok).isSome = true := by
  induction doc with
  | nil => intro v tok h; simp at h
  | cons t rest ih =>
    intro v tok h
    rcases List.mem_cons.mp h with rfl | hr
    · exact vocabFold_mono rest _ _ (vocabInsert_self v tok)
    · exact ih _ _ hr

theorem build_vocabulary_complete (corpus : List (List String)) (doc : List String)
    (tok : String) (hdoc : doc ∈ corpus) (htok : tok ∈ doc) :
    ((build_vocabulary corpus).lookup tok).isSome = true := by
  unfold build_vocabulary
  have main : ∀ (cs : List (List String)) (v : List (String × Nat)),
      (doc ∈ cs ∨ (v.lookup tok).isSome = true) →
      ((cs.foldl (fun vocab doc => doc.foldl vocabInsert vocab) v).lookup tok).isSome = true := by
    intro cs
    induction cs with
    | nil =>
      intro v h
      rcases h with h | h
      · simp at h
      · exact h
    | cons d rest ih =>
      intro v h
      rcases h with h | h
      · rcases List.mem_cons.mp h with rfl | hr
        · exact ih _ (Or.inr (vocabFold_complete _ v tok htok))
        · exact ih _ (Or.inl hr)
      · exact ih _ (Or.inr (vocabFold_mono d v tok h))
  exact main corpus [] (Or.inl hdoc)

theorem vocab_lookup_lt {v : List (String × Nat)} (hinv : VocabInv v) {t : String}
    {i : Nat} (h : v.lookup t = some i) : i < v.length :=
  hinv.2.2 _ (lookup_mem h)

theorem vocab_lookup_inj {v : List (String × Nat)} (hinv : VocabInv v)
    {t1 t2 : String} {i : Nat} (h1 : v.lookup t1 = some i) (h2 : v.lookup t2 = some i) :
    t1 = t2 := by
  have m1 := lookup_mem h1
  have m2 := lookup_mem h2
  have := List.inj_on_of_nodup_map hinv.2.1 m1 m2 rfl
  exact congrArg Prod.fst this

theorem bumpAt_length (l : List Nat) (i : Nat) : (bumpAt l i).length = l.length := by
  induction l generalizing i with
  | nil => rfl
  | cons x rest ih =>
    cases i with
    | zero => rfl
    | succ m => simp [bumpAt, ih]

theorem bumpAt_getD (l : List Nat) (i j : Nat) :
    (bumpAt l i).getD j 0 =
      if i = j ∧ j < l.length then l.getD j 0 + 1 else l.getD j 0 := by
  induction l generalizing i j with
  | nil =>
    simp [bumpAt]
  | cons x rest ih =>
    cases i with
    | zero =>
      cases j with
      | zero => simp [bumpAt]
      | succ k => simp [bumpAt]
    | succ m =>
      cases j with
      | zero => simp [bumpAt]
      | succ k =>
        show (bumpAt rest m).getD k 0 = _
        rw [ih]
        simp only [List.getD_cons_succ, List.length_cons]
        by_cases hmk : m = k
        · subst hmk
          by_cases hlt : m < rest.length
          · rw [if_pos ⟨rfl, hlt⟩, if_pos ⟨rfl, by omega⟩]
          · rw [if_neg (fun hc => hlt hc.2), if_neg (fun hc => hlt (by omega))]
        · rw [if_neg (fun hc => hmk hc.1), if_neg (fun hc => hmk (by omega))]

theorem dfStep_inv (vocab : List (String × Nat)) (doc : List String) :
    ∀ (df : List Nat) (seen : List Nat) (j : Nat),
      (j ∈ seen → ((doc.foldl (dfStep vocab) (df, seen)).1).getD j 0 = df.getD j 0) ∧
      ((doc.foldl (dfStep vocab) (df, seen)).1).getD j 0 ≤ df.getD j 0 + 1 := by
  induction doc with
  | nil =>
    intro df seen j
    exact ⟨fun _ => rfl, by simp⟩
  | cons tok rest ih =>
    intro df seen j
    rw [List.foldl_cons]
    have hstep : dfStep vocab (df, seen) tok =
        if seen.contains ((vocab.lookup tok).getD 0) then (df, seen)
        else (bumpAt df ((vocab.lookup tok).getD 0), seen ++ [(vocab.lookup tok).getD 0]) := rfl
    rw [hstep]
    by_cases hmem : seen.contains ((vocab.lookup tok).getD 0)
    · rw [if_pos hmem]
      exact ⟨fun hj => (ih df seen j).1 hj, (ih df seen j).2⟩
    · rw [if_neg hmem]
      have hband := ih (bumpAt df ((vocab.lookup tok).getD 0))
        (seen ++ [(vocab.lookup tok).getD 0]) j
      by_cases hj : j ∈ seen
      · have hjne : ¬((vocab.lookup tok).getD 0) = j := by
          intro hc
          rw [hc] at hmem
          simp at hmem
          exact hmem hj
        have h1 := hband.1 (List.mem_append_left _ hj)
        rw [bumpAt_getD, if_neg (fun hc => hjne hc.1)] at h1
        exact ⟨fun _ => h1, by rw [h1]; omega⟩
      · by_cases hji : j = ((vocab.lookup tok).getD 0)
        · have h1 := hband.1 (List.mem_append_right _ (by simp [hji]))
          rw [bumpAt_getD] at h1
          refine ⟨fun hc => absurd hc hj, ?_⟩
          rw [h1]
          split
          · omega
          · omega
        · have h2 := hband.2
          rw [bumpAt_getD, if_neg (fun hc => hji hc.1.symm)] at h2
          exact ⟨fun hc => absurd hc hj, h2⟩

theorem dfDocPass_getD_le (vocab : List (String × Nat)) (df : List Nat)
    (doc : List String) (j : Nat) :
    (dfDocPass vocab df doc).getD j 0 ≤ df.getD j 0 + 1 := by
  unfold dfDocPass
  exact (dfStep_inv vocab doc df [] j).2

theorem dfStep_length (vocab : List (String × Nat)) (doc : List String) :
    ∀ (df : List Nat) (seen : List Nat),
      ((doc.foldl (dfStep vocab) (df, seen)).1).length = df.length := by
  induction doc with
  | nil => intro df seen; rfl
  | cons tok rest ih =>
    intro df seen
    rw [List.foldl_cons]
    have hstep : dfStep vocab (df, seen) tok =
        if seen.contains ((vocab.lookup tok).getD 0) then (df, seen)
        else (bumpAt df ((vocab.lookup tok).getD 0), seen ++ [(vocab.lookup tok).getD 0]) := rfl
    rw [hstep]
    by_cases hmem : seen.contains ((vocab.lookup tok).getD 0)
    · rw [if_pos hmem]
      exact ih df seen
    · rw [if_neg hmem]
      rw [ih _ _]
      exact bumpAt_length _ _

theorem dfDocPass_length (vocab : List (String × Nat)) (df : List Nat)
    (doc : List String) : (dfDocPass vocab df doc).length = df.length := by
  unfold dfDocPass
  exact dfStep_length vocab doc df []

theorem df_corpus_le (vocab : List (String × Nat)) (corpus : List (List String)) :
    ∀ (df0 : List Nat) (j : Nat),
      (corpus.foldl (dfDocPass vocab) df0).getD j 0 ≤ df0.getD j 0 + corpus.length := by
  induction corpus with
  | nil => intro df0 j; simp
  | cons d rest ih =>
    intro df0 j
    calc (List.foldl (dfDocPass vocab) (dfDocPass vocab df0 d) rest).getD j 0
        ≤ (dfDocPass vocab df0 d).getD j 0 + rest.length := ih _ j
      _ ≤ (df0.getD j 0 + 1) + rest.length := by
          have := dfDocPass_getD_le vocab df0 d j
          omega
      _ = df0.getD j 0 + (d :: rest).length := by simp; omega

theorem df_corpus_length (vocab : List (String × Nat)) (corpus : List (List String)) :
    ∀ df0 : List Nat, (corpus.foldl (dfDocPass vocab) df0).length = df0.length := by
  induction corpus with
  | nil => intro df0; rfl
  | cons d rest ih =>
    intro df0
    rw [List.foldl_cons, ih, dfDocPass_length]

theorem replicate_getD (n : Nat) (j : Nat) : (List.replicate n (0 : Nat)).getD j 0 = 0 := by
  induction n generalizing j with
  | zero => simp
  | succ m ih =>
    cases j with
    | zero => simp [List.replicate]
    | succ k => simp [List.replicate]

theorem compute_idf_length (corpus : List (List String)) (vocab : List (String × Nat)) :
    (compute_idf corpus vocab).length = vocab.length := by
  unfold compute_idf
  rw [List.length_map, df_corpus_length, List.length_replicate]

theorem compute_idf_getD_ge_one (corpus : List (List String)) (vocab : List (String × Nat))
    (idx : Nat) (hidx : idx < (compute_idf corpus vocab).length) :
    1 ≤ (compute_idf corpus vocab).getD idx 0 := by
  have hmap : compute_idf corpus vocab =
      (corpus.foldl (dfDocPass vocab) (List.replicate vocab.length 0)).map
        (fun dfi : Nat =>
          Real.log (((corpus.length : ℝ) + 1) / ((dfi : ℝ) + 1)) + 1) := rfl
  rw [hmap] at hidx ⊢
  rw [List.length_map] at hidx
  rw [List.getD_eq_getElem _ _ (by rw [List.length_map]; exact hidx), List.getElem_map]
  have hdfi : (corpus.foldl (dfDocPass vocab) (List.replicate vocab.length 0))[idx] ≤
      corpus.length := by
    have h1 := df_corpus_le vocab corpus (List.replicate vocab.length 0) idx
    rw [replicate_getD, List.getD_eq_getElem _ _ hidx] at h1
    omega
  have hpos : (0 : ℝ) <
      (((corpus.foldl (dfDocPass vocab) (List.replicate vocab.length 0))[idx] : ℕ) : ℝ) + 1 := by
    positivity
  have hlog : 0 ≤ Real.log (((corpus.length : ℝ) + 1) /
      ((((corpus.foldl (dfDocPass vocab) (List.replicate vocab.length 0))[idx] : ℕ) : ℝ) + 1)) := by
    apply Real.log_nonneg
    rw [le_div_iff₀ hpos]
    have hcast :
        ((((corpus.foldl (dfDocPass vocab) (List.replicate vocab.length 0))[idx] : ℕ) : ℝ)) ≤
          (corpus.length : ℝ) := by exact_mod_cast hdfi
    linarith
  linarith

theorem counterBump_keys (acc : List (String × Nat)) (t : String) :
    (counterBump acc t).map Prod.fst =
      if t ∈ acc.map Prod.fst then acc.map Prod.fst else acc.map Prod.fst ++ [t] := by
  induction acc with
  | nil => simp [counterBump]
  | cons e rest ih =>
    obtain ⟨k, v⟩ := e
    show (if k = t then (k, v + 1) :: rest else (k, v) :: counterBump rest t).map Prod.fst = _
    by_cases hk : k = t
    · subst hk
      simp
    · rw [if_neg hk]
      simp only [List.map_cons, ih, List.mem_cons]
      by_cases hmem : t ∈ rest.map Prod.fst
      · rw [if_pos hmem, if_pos (Or.inr hmem)]
      · rw [if_neg hmem, if_neg (by rintro (h | h); exact hk h.symm; exact hmem h)]
        rfl

theorem counterBump_val_ge (acc : List (String × Nat)) (t : String)
    (hacc : ∀ e ∈ acc, 1 ≤ e.2) : ∀ e ∈ counterBump acc t, 1 ≤ e.2 := by
  induction acc with
  | nil =>
    intro e he
    simp [counterBump] at he
    subst he
    exact le_refl 1
  | cons a rest ih =>
    obtain ⟨k, v⟩ := a
    intro e he
    rw [show counterBump ((k, v) :: rest) t =
      if k = t then (k, v + 1) :: rest else (k, v) :: counterBump rest t from rfl] at he
    by_cases hk : k = t
    · rw [if_pos hk] at he
      rcases List.mem_cons.mp he with rfl | hr
      · omega
      · exact hacc _ (List.mem_cons_of_mem _ hr)
    · rw [if_neg hk] at he
      rcases List.mem_cons.mp he with rfl | hr
      · exact hacc _ (List.mem_cons_self _ _)
      · exact ih (fun x hx => hacc _ (List.mem_cons_of_mem _ hx)) _ hr

theorem counterFold_keys_nodup (d : List String) :
    ∀ acc : List (String × Nat), (acc.map Prod.fst).Nodup →
      ((d.foldl counterBump acc).map Prod.fst).Nodup := by
  induction d with
  | nil => intro acc h; exact h
  | cons t rest ih =>
    intro acc h
    rw [List.foldl_cons]
    apply ih
    rw [counterBump_keys]
    by_cases hmem : t ∈ acc.map Prod.fst
    · rw [if_pos hmem]; exact h
    · rw [if_neg hmem]
      simp [List.nodup_append, h, hmem]

theorem counterFold_mem_keys (d : List String) :
    ∀ (acc : List (String × Nat)) (x : String),
      (x ∈ (d.foldl counterBump acc).map Prod.fst ↔ x ∈ acc.map Prod.fst ∨ x ∈ d) := by
  induction d with
  | nil =>
    intro acc x
    simp
  | cons t rest ih =>
    intro acc x
    rw [List.foldl_cons, ih, counterBump_keys]
    by_cases hmem : t ∈ acc.map Prod.fst
    · rw [if_pos hmem]
      constructor
      · rintro (h | h)
        · exact Or.inl h
        · exact Or.inr (List.mem_cons_of_mem _ h)
      · rintro (h | h)
        · exact Or.inl h
        · rcases List.mem_cons.mp h with rfl | hr
          · exact Or.inl hmem
          · exact Or.inr hr
    · rw [if_neg hmem]
      simp only [List.mem_append, List.mem_singleton, List.mem_cons, List.not_mem_nil,
        or_false]
      tauto

theorem counterFold_val_ge (d : List String) :
    ∀ acc : List (String × Nat), (∀ e ∈ acc, 1 ≤ e.2) →
      ∀ e ∈ d.foldl counterBump acc, 1 ≤ e.2 := by
  induction d with
  | nil => intro acc h; exact h
  | cons t rest ih =>
    intro acc h
    rw [List.foldl_cons]
    exact ih _ (counterBump_val_ge acc t h)

theorem counter_keys_nodup (d : List String) : ((counter d).map Prod.fst).Nodup :=
  counterFold_keys_nodup d [] (by simp)

theorem counter_mem_keys (d : List String) (x : String) :
    x ∈ (counter d).map Prod.fst ↔ x ∈ d := by
  rw [show counter d = d.foldl counterBump [] from rfl, counterFold_mem_keys]
  simp

theorem counter_val_ge (d : List String) : ∀ e ∈ counter d, 1 ≤ e.2 :=
  counterFold_val_ge d [] (by simp)

theorem tfidf_fold_eq (vocab : List (String × Nat)) (idf : List ℝ) (l : List (String × Nat)) :
    ∀ acc : List (Nat × ℝ),
      l.foldl (tfidfEntry vocab idf) acc =
        acc ++ l.filterMap (fun e =>
          (vocab.lookup e.1).map (fun idx => (idx, (e.2 : ℝ) * idf.getD idx 0))) := by
  induction l with
  | nil => intro acc; simp
  | cons e rest ih =>
    intro acc
    rw [List.foldl_cons, ih, List.filterMap_cons]
    cases h : vocab.lookup e.1 with
    | none =>
      rw [show tfidfEntry vocab idf acc e = acc from by unfold tfidfEntry; rw [h]]
      simp
    | some idx =>
      rw [show tfidfEntry vocab idf acc e = acc ++ [(idx, (e.2 : ℝ) * idf.getD idx 0)] from by
        unfold tfidfEntry; rw [h]]
      simp

theorem rawKeys_mem (vocab : List (String × Nat)) (idf : List ℝ)
    (l : List (String × Nat)) (i : Nat) :
    (i ∈ (l.filterMap (fun e =>
        (vocab.lookup e.1).map (fun idx => (idx, (e.2 : ℝ) * idf.getD idx 0)))).map Prod.fst) ↔
      ∃ e ∈ l, vocab.lookup e.1 = some i := by
  constructor
  · intro h
    rcases List.mem_map.mp h with ⟨x, hx, hfst⟩
    rcases List.mem_filterMap.mp hx with ⟨e, he, hge⟩
    cases hl : vocab.lookup e.1 with
    | none => rw [hl] at hge; simp at hge
    | some idx =>
      rw [hl] at hge
      simp at hge
      refine ⟨e, he, ?_⟩
      rw [hl]
      have hx1 : x.1 = idx := by rw [← hge]
      rw [← hfst, hx1]
  · rintro ⟨e, he, hl⟩
    apply List.mem_map.mpr
    refine ⟨(i, (e.2 : ℝ) * idf.getD i 0), ?_, rfl⟩
    apply List.mem_filterMap.mpr
    exact ⟨e, he, by rw [hl]; rfl⟩

theorem rawKeys_nodup (vocab : List (String × Nat)) (idf : List ℝ)
    (hinv : VocabInv vocab) (l : List (String × Nat))
    (hl : (l.map Prod.fst).Nodup) :
    ((l.filterMap (fun e =>
        (vocab.lookup e.1).map (fun idx => (idx, (e.2 : ℝ) * idf.getD idx 0)))).map
      Prod.fst).Nodup := by
  induction l with
  | nil => simp
  | cons e rest ih =>
    simp only [List.map_cons, List.nodup_cons] at hl
    rw [List.filterMap_cons]
    cases h : vocab.lookup e.1 with
    | none => exact ih hl.2
    | some idx =>
      simp only [Option.map_some']
      rw [List.map_cons, List.nodup_cons]
      refine ⟨?_, ih hl.2⟩
      intro hc
      rcases (rawKeys_mem vocab idf rest idx).mp hc with ⟨e2, he2, hl2⟩
      have := vocab_lookup_inj hinv hl2 h
      exact hl.1 (this ▸ List.mem_map_of_mem Prod.fst he2)

theorem cosine_self_eq (v : List (Nat × ℝ)) :
    cosine_similarity_sparse v v = (v.map (fun e => e.2 * ((v.lookup e.1).getD 0))).sum := by
  show ((if v.length < v.length then (v, v) else (v, v)).1.map
      (fun e => e.2 *
        (((if v.length < v.length then (v, v) else (v, v)).2.lookup e.1).getD 0))).sum = _
  rw [if_neg (lt_irrefl v.length)]

theorem l2_self_cosine (raw : List (Nat × ℝ)) (hnodup : (raw.map Prod.fst).Nodup)
    (hpos : ∀ x ∈ raw, 0 < x.2) (hne : raw ≠ []) :
    cosine_similarity_sparse (l2_normalize raw) (l2_normalize raw) = 1 := by
  have hS : 0 < ((raw.map (fun e => e.2 * e.2)).sum) := by
    apply List.sum_pos
    · intro x hx
      rcases List.mem_map.mp hx with ⟨e, he, rfl⟩
      exact mul_pos (hpos e he) (hpos e he)
    · simpa using hne
  have hsne : Real.sqrt ((raw.map (fun e => e.2 * e.2)).sum) ≠ 0 :=
    ne_of_gt (Real.sqrt_pos.mpr hS)
  have hvec : l2_normalize raw =
      raw.map (fun e => (e.1, e.2 / Real.sqrt ((raw.map (fun x => x.2 * x.2)).sum))) := by
    show raw.map (fun e => (e.1, e.2 /
        (if Real.sqrt ((raw.map (fun e => e.2 * e.2)).sum) = 0 then 1
         else Real.sqrt ((raw.map (fun e => e.2 * e.2)).sum)))) = _
    rw [if_neg hsne]
  rw [hvec, cosine_self_eq]
  have hkeys : ((raw.map
      (fun e => (e.1, e.2 / Real.sqrt ((raw.map (fun x => x.2 * x.2)).sum)))).map
      Prod.fst).Nodup := by
    rw [List.map_map]
    exact hnodup
  have hterm : ∀ x ∈ raw.map
      (fun e => (e.1, e.2 / Real.sqrt ((raw.map (fun x => x.2 * x.2)).sum))),
      x.2 * (((raw.map
        (fun e => (e.1, e.2 / Real.sqrt ((raw.map (fun x => x.2 * x.2)).sum)))).lookup
          x.1).getD 0) = x.2 * x.2 := by
    intro x hx
    have hx' : (x.1, x.2) ∈ raw.map
        (fun e => (e.1, e.2 / Real.sqrt ((raw.map (fun x => x.2 * x.2)).sum))) := by
      simpa using hx
    rw [lookup_self_of_nodup hkeys hx']
    rfl
  have h5 : (raw.map
        (fun e => (e.1, e.2 / Real.sqrt ((raw.map (fun x => x.2 * x.2)).sum)))).map
        (fun e => e.2 * (((raw.map
          (fun e => (e.1, e.2 / Real.sqrt ((raw.map (fun x => x.2 * x.2)).sum)))).lookup
            e.1).getD 0)) =
      (raw.map
        (fun e => (e.1, e.2 / Real.sqrt ((raw.map (fun x => x.2 * x.2)).sum)))).map
        (fun e => e.2 * e.2) :=
    List.map_congr_left hterm
  rw [h5, List.map_map]
  have hterm2 : ∀ e ∈ raw,
      ((fun e : Nat × ℝ => e.2 * e.2) ∘
        (fun e : Nat × ℝ => (e.1, e.2 / Real.sqrt ((raw.map (fun x => x.2 * x.2)).sum)))) e =
        (e.2 * e.2) * ((raw.map (fun x => x.2 * x.2)).sum)⁻¹ := by
    intro e _
    show (e.2 / Real.sqrt ((raw.map (fun x => x.2 * x.2)).sum)) *
        (e.2 / Real.sqrt ((raw.map (fun x => x.2 * x.2)).sum)) = _
    rw [div_mul_div_comm, Real.mul_self_sqrt hS.le, div_eq_mul_inv]
  have h6 : raw.map ((fun e : Nat × ℝ => e.2 * e.2) ∘
        (fun e : Nat × ℝ => (e.1, e.2 / Real.sqrt ((raw.map (fun x => x.2 * x.2)).sum)))) =
      raw.map (fun e => (e.2 * e.2) * ((raw.map (fun x => x.2 * x.2)).sum)⁻¹) :=
    List.map_congr_left hterm2
  rw [h6, List.sum_map_mul_right, mul_inv_cancel₀ (ne_of_gt hS)]

theorem tfidf_self_eq_one (d : List String) (hne : d ≠ []) :
    cosine_similarity_sparse
      (to_tfidf d (build_vocabulary [d, d]) (compute_idf [d, d] (build_vocabulary [d, d])))
      (to_tfidf d (build_vocabulary [d, d]) (compute_idf [d, d] (build_vocabulary [d, d]))) =
      1 := by
  have hinv := build_vocabulary_inv [d, d]
  have hraw : to_tfidf d (build_vocabulary [d, d])
        (compute_idf [d, d] (build_vocabulary [d, d])) =
      l2_normalize ((counter d).filterMap (fun e =>
        ((build_vocabulary [d, d]).lookup e.1).map
          (fun idx => (idx,
            (e.2 : ℝ) * (compute_idf [d, d] (build_vocabulary [d, d])).getD idx 0)))) := by
    unfold to_tfidf
    rw [tfidf_fold_eq, List.nil_append]
  rw [hraw]
  apply l2_self_cosine
  · exact rawKeys_nodup _ _ hinv _ (counter_keys_nodup d)
  · intro x hx
    rcases List.mem_filterMap.mp hx with ⟨e, he, hge⟩
    cases hl : (build_vocabulary [d, d]).lookup e.1 with
    | none => rw [hl] at hge; simp at hge
    | some idx =>
      rw [hl] at hge
      simp at hge
      have hidx : idx < (build_vocabulary [d, d]).length := vocab_lookup_lt hinv hl
      have hidf : 1 ≤ (compute_idf [d, d] (build_vocabulary [d, d])).getD idx 0 := by
        apply compute_idf_getD_ge_one
        rw [compute_idf_length]
        exact hidx
      have hcnt : 1 ≤ e.2 := counter_val_ge d e he
      have hcnt2 : (1 : ℝ) ≤ (e.2 : ℝ) := by exact_mod_cast hcnt
      have hx2 : x.2 =
          (e.2 : ℝ) * (compute_idf [d, d] (build_vocabulary [d, d])).getD idx 0 := by
        rw [← hge, List.getD_eq_getElem?_getD]
      rw [hx2]
      nlinarith
  · obtain ⟨t, ht⟩ := List.exists_mem_of_ne_nil d hne
    have htk : t ∈ (counter d).map Prod.fst := (counter_mem_keys d t).mpr ht
    rcases List.mem_map.mp htk with ⟨e, he, hfst⟩
    have hsome : (((build_vocabulary [d, d]).lookup e.1).isSome) = true := by
      rw [hfst]
      exact build_vocabulary_complete [d, d] d t (by simp) ht
    rcases Option.isSome_iff_exists.mp hsome with ⟨idx, hli⟩
    intro hcon
    have hmem : (idx,
        (e.2 : ℝ) * (compute_idf [d, d] (build_vocabulary [d, d])).getD idx 0) ∈
        (counter d).filterMap (fun e =>
          ((build_vocabulary [d, d]).lookup e.1).map
            (fun idx => (idx,
              (e.2 : ℝ) * (compute_idf [d, d] (build_vocabulary [d, d])).getD idx 0))) :=
      List.mem_filterMap.mpr ⟨e, he, by rw [hli]; rfl⟩
    rw [hcon] at hmem
    simp at hmem

/-- C5 amended: whenever the prepared unigram token sequence of a text
(tokenization followed by stopword removal) is non-empty, the TF-IDF cosine
similarity of the text with itself is exactly 1: the two documents coincide,
every counter value and smoothed-IDF entry is ≥ 1, so the raw vector is
non-empty with positive weights, and the L2-normalized self dot product is
`S / (√S·√S) = 1`. -/
theorem claim_c5 (text : String) (stopwords : List String)
    (hne : prepare_tokens text stopwords (1, 1) ≠ []) :
    tfidf_cosine_similarity text text stopwords (1, 1) = 1 :=
  tfidf_self_eq_one (prepare_tokens text stopwords (1, 1)) hne

theorem claim_c5_witness :
    prepare_tokens ("кот сидит на окне") ru_stopwords (1, 1) ≠ [] ∧
      tfidf_cosine_similarity ("кот сидит на окне") ("кот сидит на окне")
        ru_stopwords (1, 1) = 1 :=
  ⟨by decide, claim_c5 ("кот сидит на окне") ru_stopwords (by decide)⟩

/-- C5 counterexample: the non-empty text "и" consists of a single stopword,
so both prepared documents are empty, both TF-IDF vectors are empty, and the
self similarity is 0, not 1. -/
theorem claim_c5_counterexample :
    ("и") ≠ ("") ∧ tfidf_cosine_similarity ("и") ("и") ru_stopwords (1, 1) = 0 :=
  ⟨by decide, by rfl⟩

theorem round4_idem (x : ℚ) : round4 (round4 x) = round4 x := by
  unfold round4
  rw [div_mul_cancel₀ _ (show (10000 : ℚ) ≠ 0 by norm_num)]
  rw [add_comm ((⌊x * 10000 + 1 / 2⌋ : ℤ) : ℚ) (1 / 2)]
  rw [Int.floor_add_int]
  have h0 : ⌊(1 / 2 : ℚ)⌋ = 0 := by norm_num
  rw [h0, zero_add]

theorem round4_eq_zero {x : ℚ} (h0 : 0 ≤ x) (hlt : x < 1 / 20000) : round4 x = 0 := by
  unfold round4
  have hf : ⌊x * 10000 + 1 / 2⌋ = 0 := by
    apply Int.floor_eq_zero_iff.mpr
    rw [Set.mem_Ico]
    constructor
    · linarith
    · linarith
  rw [hf]
  norm_num

theorem bestFold_snoc (l : List (String × SiteMetrics)) (e : String × SiteMetrics) :
    bestFold (l ++ [e]) =
      if (bestFold l).2 < e.2.total_score then (some e.1, round4 e.2.total_score)
      else bestFold l := by
  unfold bestFold
  rw [List.foldl_append]
  rfl

theorem bestFold_core (l : List (String × SiteMetrics))
    (hround : ∀ e ∈ l, round4 e.2.total_score = e.2.total_score) :
    0 ≤ (bestFold l).2 ∧
    (∀ e ∈ l, e.2.total_score ≤ (bestFold l).2) ∧
    ((bestFold l).1 = none → (bestFold l).2 = 0) ∧
    (∀ s, (bestFold l).1 = some s →
      ∃ pre e post, l = pre ++ e :: post ∧ e.1 = s ∧ 0 < e.2.total_score ∧
        (bestFold l).2 = e.2.total_score ∧
        ∀ x ∈ pre, x.2.total_score < e.2.total_score) := by
  induction l using List.reverseRecOn with
  | nil =>
    refine ⟨le_refl 0, ?_, fun _ => rfl, ?_⟩
    · intro e he; simp at he
    · intro s hs; simp [bestFold] at hs
  | append_singleton l e ih =>
    have hr : round4 e.2.total_score = e.2.total_score := hround e (by simp)
    have hl := ih (fun x hx => hround x (List.mem_append_left _ hx))
    rw [bestFold_snoc]
    by_cases hlt : (bestFold l).2 < e.2.total_score
    · rw [if_pos hlt, hr]
      refine ⟨le_of_lt (lt_of_le_of_lt hl.1 hlt), ?_, ?_, ?_⟩
      · intro x hx
        rcases List.mem_append.mp hx with h | h
        · exact le_trans (hl.2.1 x h) (le_of_lt hlt)
        · rw [List.mem_singleton] at h
          subst h
          exact le_refl _
      · intro h
        simp at h
      · intro s hs
        have hes : e.1 = s := by simpa using hs
        refine ⟨l, e, [], by simp, hes, lt_of_le_of_lt hl.1 hlt, rfl, ?_⟩
        intro x hx
        exact lt_of_le_of_lt (hl.2.1 x hx) hlt
    · rw [if_neg hlt]
      push_neg at hlt
      refine ⟨hl.1, ?_, hl.2.2.1, ?_⟩
      · intro x hx
        rcases List.mem_append.mp hx with h | h
        · exact hl.2.1 x h
        · rw [List.mem_singleton] at h
          subst h
          exact hlt
      · intro s hs
        rcases hl.2.2.2 s hs with ⟨pre, w, post, hsplit, hws, hwpos, hval, hpre⟩
        exact ⟨pre, w, post ++ [e], by rw [hsplit]; simp, hws, hwpos, hval, hpre⟩

theorem bestFold_spec (l : List (String × SiteMetrics))
    (hround : ∀ e ∈ l, round4 e.2.total_score = e.2.total_score) :
    ((bestFold l).1 = none ↔ ∀ e ∈ l, e.2.total_score ≤ 0) ∧
    ∀ s, (bestFold l).1 = some s →
      ∃ pre e post, l = pre ++ e :: post ∧ e.1 = s ∧ 0 < e.2.total_score ∧
        (bestFold l).2 = e.2.total_score ∧
        (∀ x ∈ pre, x.2.total_score < e.2.total_score) ∧
        (∀ x ∈ l, x.2.total_score ≤ e.2.total_score) := by
  have hc := bestFold_core l hround
  constructor
  · constructor
    · intro h x hx
      have h0 := hc.2.2.1 h
      calc x.2.total_score ≤ (bestFold l).2 := hc.2.1 x hx
        _ = 0 := h0
    · intro hall
      cases hb : (bestFold l).1 with
      | none => rfl
      | some s =>
        rcases hc.2.2.2 s hb with ⟨pre, w, post, hsplit, _, hwpos, _, _⟩
        have hw : w ∈ l := by rw [hsplit]; simp
        have := hall w hw
        linarith
  · intro s hs
    rcases hc.2.2.2 s hs with ⟨pre, w, post, hsplit, hws, hwpos, hval, hpre⟩
    refine ⟨pre, w, post, hsplit, hws, hwpos, hval, hpre, ?_⟩
    intro x hx
    calc x.2.total_score ≤ (bestFold l).2 := hc.2.1 x hx
      _ = w.2.total_score := hval

/-- C2 amended: the best-competitor record's site is `none` exactly when no
competitor's rounded total score exceeds 0; when it is `some s`, `s` is the
first-encountered competitor attaining the maximum rounded total score, and
the best score equals that competitor's (already rounded) total score.  In
particular `site` can be `none` even though competitors were cited, whenever
every competitor's total score rounds to 0.0000 at 4 decimal places. -/
theorem claim_c2 (a : AnalyzerState) (response_text : String) :
    ((evaluate a response_text).2.best_site = none ↔
      ∀ e ∈ (evaluate a response_text).2.competitors, e.2.total_score ≤ 0) ∧
    ∀ s, (evaluate a response_text).2.best_site = some s →
      ∃ pre e post, (evaluate a response_text).2.competitors = pre ++ e :: post ∧
        e.1 = s ∧ 0 < e.2.total_score ∧
        (evaluate a response_text).2.best_score = e.2.total_score ∧
        (∀ x ∈ pre, x.2.total_score < e.2.total_score) ∧
        (∀ x ∈ (evaluate a response_text).2.competitors,
          x.2.total_score ≤ e.2.total_score) := by
  have hround : ∀ e ∈ (evaluate a response_text).2.competitors,
      round4 e.2.total_score = e.2.total_score := by
    intro e he
    have he2 : e ∈ (parse_response a response_text).site_citations.filterMap (fun x =>
        if x.1 ≠ (parse_response a response_text).target_site then
          some (x.1, roundMetrics
            (calculate_metrics_for_site (parse_response a response_text) x.1))
        else none) := he
    rcases List.mem_filterMap.mp he2 with ⟨x, hx, hxe⟩
    by_cases hne : x.1 ≠ (parse_response a response_text).target_site
    · rw [if_pos hne] at hxe
      have hpair : (x.1, roundMetrics
          (calculate_metrics_for_site (parse_response a response_text) x.1)) = e :=
        Option.some.inj hxe
      rw [← hpair]
      show round4 (round4
        (calculate_metrics_for_site (parse_response a response_text) x.1).total_score) = _
      rw [round4_idem]
      rfl
    · rw [if_neg hne] at hxe
      simp at hxe
  exact bestFold_spec ((evaluate a response_text).2.competitors) hround

theorem claim_c2_witness :
    (evaluate (analyzerInit ("botanichka.ru"))
      ("aaa bbb ccc ddd eee\nflowers.ru")).2.best_site ≠ none := by
  intro h
  have hall := (claim_c2 (analyzerInit ("botanichka.ru"))
    ("aaa bbb ccc ddd eee\nflowers.ru")).1.mp h
  exact absurd hall (by with_unfolding_all decide)

theorem ne_nl_of_not_ws {c : Char} (h : isPyWs c = false) : ¬(c = '\n') := by
  intro hc
  subst hc
  exact absurd h (by decide)

theorem blankMatchLen_not_ws {c : Char} (h : isPyWs c = false) (rest : List Char) :
    blankMatchLen (c :: rest) = none := by
  have hc := ne_nl_of_not_ws h
  unfold blankMatchLen
  split
  · rename_i heq
    exact absurd (List.cons.inj heq).1 hc
  · rfl

theorem blankMatchLen_nl_not_ws {d : Char} (h : isPyWs d = false) (rest : List Char) :
    blankMatchLen ('\n' :: d :: rest) = none := by
  have hd := ne_nl_of_not_ws h
  have hrun : (d :: rest).takeWhile isPyWs = [] := by
    rw [List.takeWhile_cons, if_neg (by simp [h])]
  have htw : (('\n' :: d :: rest).takeWhile (fun c => c = '\n')).length = 1 := by
    rw [List.takeWhile_cons, if_pos (by simp), List.takeWhile_cons,
      if_neg (by simp [hd])]
    rfl
  unfold blankMatchLen
  split
  · rename_i rest2 heq
    obtain rfl := (List.cons.inj heq).2
    rw [hrun]
    simp only [List.length_nil, downFrom, firstHit, List.get?_cons_zero]
    split
    · rename_i n heq2
      split at heq2 <;> simp_all
    · rw [htw]
      rfl
  · rfl

theorem splitBlank_skip_line :
    ∀ (l : List Char), (∀ c ∈ l, isPyWs c = false) →
      ∀ (fuel : Nat) (cur tl : List Char),
        splitBlank (fuel + l.length) cur (l ++ tl) =
          splitBlank fuel (l.reverse ++ cur) tl := by
  intro l
  induction l with
  | nil =>
    intro _ fuel cur tl
    rfl
  | cons c t ih =>
    intro hl fuel cur tl
    have hc : isPyWs c = false := hl c (List.mem_cons_self _ _)
    have hlen : fuel + (c :: t).length = (fuel + t.length) + 1 := by
      simp only [List.length_cons]
      omega
    rw [hlen]
    show (match blankMatchLen (c :: (t ++ tl)) with
      | some k => cur.reverse :: splitBlank (fuel + t.length) [] ((c :: (t ++ tl)).drop k)
      | none => splitBlank (fuel + t.length) (c :: cur) (t ++ tl)) =
      splitBlank fuel ((c :: t).reverse ++ cur) tl
    rw [blankMatchLen_not_ws hc (t ++ tl)]
    show splitBlank (fuel + t.length) (c :: cur) (t ++ tl) = _
    rw [ih (fun x hx => hl x (List.mem_cons_of_mem _ hx)) fuel (c :: cur) tl]
    congr 1
    simp

theorem splitBlank_joinNl :
    ∀ (L : List (List Char)),
      (∀ l ∈ L, l ≠ [] ∧ ∀ c ∈ l, isPyWs c = false) →
      ∀ (fuel : Nat) (cur : List Char),
        splitBlank (fuel + (joinNl L).length) cur (joinNl L) =
          [cur.reverse ++ joinNl L] := by
  intro L
  induction L with
  | nil =>
    intro _ fuel cur
    show splitBlank fuel cur [] = [cur.reverse ++ []]
    cases fuel with
    | zero => rfl
    | succ n =>
      show [cur.reverse] = [cur.reverse ++ []]
      simp
  | cons l L2 ih =>
    intro hL fuel cur
    have hl := hL l (List.mem_cons_self _ _)
    cases L2 with
    | nil =>
      show splitBlank (fuel + l.length) cur l = [cur.reverse ++ l]
      have hm := splitBlank_skip_line l hl.2 fuel cur []
      rw [List.append_nil] at hm
      rw [hm]
      cases fuel with
      | zero =>
        show [(l.reverse ++ cur).reverse ++ []] = [cur.reverse ++ l]
        simp [List.reverse_append]
      | succ n =>
        show [(l.reverse ++ cur).reverse] = [cur.reverse ++ l]
        simp [List.reverse_append]
    | cons l2 L3 =>
      rw [show joinNl (l :: l2 :: L3) = l ++ '\n' :: joinNl (l2 :: L3) from rfl]
      have hlen : fuel + (l ++ '\n' :: joinNl (l2 :: L3)).length =
          (fuel + (joinNl (l2 :: L3)).length + 1) + l.length := by
        simp only [List.length_append, List.length_cons]
        omega
      rw [hlen]
      rw [splitBlank_skip_line l hl.2 _ cur ('\n' :: joinNl (l2 :: L3))]
      obtain ⟨d, t, hdt⟩ := List.exists_cons_of_ne_nil (hL l2 (by simp)).1
      have hdws : isPyWs d = false := by
        apply (hL l2 (by simp)).2
        rw [hdt]
        exact List.mem_cons_self _ _
      have hcons : ∃ X, joinNl (l2 :: L3) = d :: X := by
        cases L3 with
        | nil => exact ⟨t, by rw [show joinNl [l2] = l2 from rfl, hdt]⟩
        | cons l4 L5 =>
          refine ⟨t ++ '\n' :: joinNl (l4 :: L5), ?_⟩
          rw [show joinNl (l2 :: l4 :: L5) = l2 ++ '\n' :: joinNl (l4 :: L5) from rfl, hdt]
          rfl
      obtain ⟨X, hX⟩ := hcons
      rw [hX]
      show (match blankMatchLen ('\n' :: d :: X) with
        | some k => (l.reverse ++ cur).reverse ::
            splitBlank (fuel + (d :: X).length) [] (('\n' :: d :: X).drop k)
        | none => splitBlank (fuel + (d :: X).length) ('\n' :: (l.reverse ++ cur)) (d :: X)) =
        [cur.reverse ++ (l ++ '\n' :: d :: X)]
      rw [blankMatchLen_nl_not_ws hdws X]
      show splitBlank (fuel + (d :: X).length) ('\n' :: (l.reverse ++ cur)) (d :: X) = _
      rw [← hX]
      rw [ih (fun x hx => hL x (List.mem_cons_of_mem _ hx)) fuel ('\n' :: (l.reverse ++ cur))]
      congr 1
      simp [List.reverse_append, List.append_assoc]

theorem splitOnChar_ne_nil (sep : Char) : ∀ l : List Char, splitOnChar sep l ≠ [] := by
  intro l
  induction l with
  | nil => simp [splitOnChar]
  | cons c t ih =>
    show (match splitOnChar sep t with
      | [] => [[]]
      | h :: t2 => if c = sep then [] :: h :: t2 else (c :: h) :: t2) ≠ []
    cases hs : splitOnChar sep t with
    | nil => simp
    | cons h t2 =>
      by_cases hc : c = sep
      · simp [hc]
      · simp [hc]

theorem splitOnChar_no_sep (sep : Char) :
    ∀ l : List Char, (∀ c ∈ l, ¬(c = sep)) → splitOnChar sep l = [l] := by
  intro l
  induction l with
  | nil => intro _; rfl
  | cons c t ih =>
    intro h
    show (match splitOnChar sep t with
      | [] => [[]]
      | h2 :: t2 => if c = sep then [] :: h2 :: t2 else (c :: h2) :: t2) = [c :: t]
    rw [ih (fun x hx => h x (List.mem_cons_of_mem _ hx))]
    show (if c = sep then [[], t] else [c :: t]) = [c :: t]
    rw [if_neg (h c (List.mem_cons_self _ _))]

theorem splitOnChar_append (sep : Char) :
    ∀ (l tl : List Char), (∀ c ∈ l, ¬(c = sep)) →
      splitOnChar sep (l ++ sep :: tl) = l :: splitOnChar sep tl := by
  intro l
  induction l with
  | nil =>
    intro tl _
    show (match splitOnChar sep tl with
      | [] => [[]]
      | h :: t => if sep = sep then [] :: h :: t else (sep :: h) :: t) =
      [] :: splitOnChar sep tl
    cases hs : splitOnChar sep tl with
    | nil => exact absurd hs (splitOnChar_ne_nil sep tl)
    | cons h t =>
      show (if sep = sep then [] :: h :: t else (sep :: h) :: t) = [] :: h :: t
      rw [if_pos rfl]
  | cons c t ih =>
    intro tl h
    show (match splitOnChar sep (t ++ sep :: tl) with
      | [] => [[]]
      | h2 :: t2 => if c = sep then [] :: h2 :: t2 else (c :: h2) :: t2) =
      (c :: t) :: splitOnChar sep tl
    rw [ih tl (fun x hx => h x (List.mem_cons_of_mem _ hx))]
    show (if c = sep then [] :: t :: splitOnChar sep tl
      else (c :: t) :: splitOnChar sep tl) = _
    rw [if_neg (h c (List.mem_cons_self _ _))]

theorem splitOnChar_joinNl :
    ∀ (L : List (List Char)), L ≠ [] →
      (∀ l ∈ L, ∀ c ∈ l, isPyWs c = false) →
      splitOnChar '\n' (joinNl L) = L := by
  intro L
  induction L with
  | nil => intro h _; exact absurd rfl h
  | cons l L2 ih =>
    intro _ hL
    have hnl : ∀ c ∈ l, ¬(c = '\n') :=
      fun c hc => ne_nl_of_not_ws (hL l (List.mem_cons_self _ _) c hc)
    cases L2 with
    | nil => exact splitOnChar_no_sep '\n' l hnl
    | cons l2 L3 =>
      rw [show joinNl (l :: l2 :: L3) = l ++ '\n' :: joinNl (l2 :: L3) from rfl]
      rw [splitOnChar_append '\n' l (joinNl (l2 :: L3)) hnl]
      rw [ih (by simp) (fun x hx => hL x (List.mem_cons_of_mem _ hx))]

theorem pyStrip_id {l : List Char}
    (h1 : ∀ c, l.head? = some c → isPyWs c = false)
    (h2 : ∀ c, l.getLast? = some c → isPyWs c = false) : pyStrip l = l := by
  cases l with
  | nil => rfl
  | cons a t =>
    have ha : isPyWs a = false := h1 a rfl
    unfold pyStrip
    rw [List.dropWhile_cons, if_neg (by simp [ha])]
    cases hr : (a :: t).reverse with
    | nil => exact absurd hr (by simp)
    | cons b s =>
      have hb : isPyWs b = false := by
        apply h2
        rw [← List.head?_reverse, hr]
        rfl
      have hstep : (b :: s).dropWhile isPyWs = b :: s := by
        rw [List.dropWhile_cons, if_neg (by simp [hb])]
      rw [hstep, ← hr, List.reverse_reverse]

theorem joinNl_cons_ne_nil (l : List Char) {L : List (List Char)} (h : L ≠ []) :
    joinNl (l :: L) = l ++ '\n' :: joinNl L := by
  cases L with
  | nil => exact absurd rfl h
  | cons a t => rfl

theorem joinNl_getLast_append (l : List Char) (hl : l ≠ []) :
    ∀ L : List (List Char), (joinNl (L ++ [l])).getLast? = l.getLast? := by
  intro L
  induction L with
  | nil => rfl
  | cons a L2 ih =>
    rw [List.cons_append, joinNl_cons_ne_nil a (by simp)]
    rw [List.getLast?_append_cons]
    obtain ⟨c, hc⟩ := Option.isSome_iff_exists.mp (List.getLast?_isSome.mpr hl)
    have hJne : joinNl (L2 ++ [l]) ≠ [] := by
      intro hcon
      rw [← ih, hcon] at hc
      simp at hc
    rw [show ('\n' :: joinNl (L2 ++ [l])) = ['\n'] ++ joinNl (L2 ++ [l]) from rfl]
    rw [List.getLast?_append_of_ne_nil _ hJne]
    exact ih

theorem lineStep_digits (acc : List (List Char) × List (List Char)) :
    lineStep acc (String.data ("12345")) = (acc.1 ++ [String.data ("12345")], acc.2) := rfl

theorem lineStep_bot (acc : List (List Char) × List (List Char)) :
    lineStep acc (String.data ("botanichka.ru")) =
      (acc.1, acc.2 ++ [String.data ("botanichka.ru")]) := by
  with_unfolding_all rfl

theorem lineStep_aru (acc : List (List Char) × List (List Char)) :
    lineStep acc (String.data ("a.ru")) =
      (acc.1, acc.2 ++ [String.data ("a.ru")]) := by
  with_unfolding_all rfl

theorem foldl_lineStep_rep (x d : List Char)
    (hx : ∀ acc, lineStep acc x = (acc.1, acc.2 ++ [d])) :
    ∀ (n : Nat) (acc : List (List Char) × List (List Char)),
      (List.replicate n x).foldl lineStep acc = (acc.1, acc.2 ++ List.replicate n d) := by
  intro n
  induction n with
  | zero =>
    intro acc
    simp
  | succ m ih =>
    intro acc
    rw [List.replicate_succ, List.foldl_cons, hx, ih]
    simp [List.replicate_succ]

theorem flood_hL : ∀ l ∈ floodLines, l ≠ [] ∧ ∀ c ∈ l, isPyWs c = false := by
  intro l hm
  unfold floodLines at hm
  have hl3 : l = String.data ("12345") ∨ l = String.data ("botanichka.ru") ∨
      l = String.data ("a.ru") := by
    rcases List.mem_cons.mp hm with h | h
    · exact Or.inl h
    · rcases List.mem_append.mp h with h2 | h2
      · rcases List.mem_append.mp h2 with h3 | h3
        · exact Or.inr (Or.inl (List.eq_of_mem_replicate h3))
        · exact Or.inr (Or.inr (List.eq_of_mem_replicate h3))
      · rw [List.mem_singleton] at h2
        exact Or.inl h2
  rcases hl3 with rfl | rfl | rfl
  · exact ⟨by decide, by decide⟩
  · exact ⟨by decide, by decide⟩
  · exact ⟨by decide, by decide⟩

theorem flood_strip : pyStrip (joinNl floodLines) = joinNl floodLines := by
  apply pyStrip_id
  · intro c hc
    rw [show (joinNl floodLines).head? = some '1' from rfl] at hc
    obtain rfl := Option.some.inj hc
    decide
  · intro c hc
    have hre : joinNl floodLines = joinNl ((String.data ("12345") ::
        (List.replicate 25 (String.data ("botanichka.ru")) ++
         List.replicate 1400 (String.data ("a.ru")))) ++ [String.data ("12345")]) := by
      congr 1
    rw [hre, joinNl_getLast_append (String.data ("12345")) (by decide)] at hc
    rw [show (String.data ("12345")).getLast? = some '5' from rfl] at hc
    obtain rfl := Option.some.inj hc
    decide

theorem flood_lineFold :
    floodLines.foldl lineStep ([], []) =
      ([String.data ("12345"), String.data ("12345")],
       List.replicate 25 (String.data ("botanichka.ru")) ++
         List.replicate 1400 (String.data ("a.ru"))) := by
  show (String.data ("12345") ::
      (List.replicate 25 (String.data ("botanichka.ru")) ++
       List.replicate 1400 (String.data ("a.ru")) ++
       [String.data ("12345")])).foldl lineStep ([], []) = _
  rw [List.foldl_cons, lineStep_digits]
  rw [List.foldl_append, List.foldl_append]
  rw [foldl_lineStep_rep _ _ lineStep_bot 25, foldl_lineStep_rep _ _ lineStep_aru 1400]
  rw [List.foldl_cons, List.foldl_nil, lineStep_digits]
  simp only [List.nil_append, List.singleton_append, List.append_assoc]

theorem flood_paraStep :
    paraStep [] (joinNl floodLines) =
      [(joinSpace [String.data ("12345"), String.data ("12345")],
        List.replicate 25 (String.data ("botanichka.ru")) ++
          List.replicate 1400 (String.data ("a.ru")))] := by
  have hne : joinNl floodLines ≠ [] := by
    rw [show joinNl floodLines = String.data ("12345") ++ '\n' ::
      joinNl (List.replicate 25 (String.data ("botanichka.ru")) ++
        List.replicate 1400 (String.data ("a.ru")) ++ [String.data ("12345")]) from rfl]
    exact List.append_ne_nil_of_right_ne_nil _ (List.cons_ne_nil _ _)
  show (if pyStrip (joinNl floodLines) = [] then ([] : List (List Char × List (List Char)))
    else
      if ((splitOnChar '\n' (pyStrip (joinNl floodLines))).foldl lineStep ([], [])).1 = []
      then []
      else [] ++
        [(joinSpace ((splitOnChar '\n' (pyStrip (joinNl floodLines))).foldl
            lineStep ([], [])).1,
          ((splitOnChar '\n' (pyStrip (joinNl floodLines))).foldl lineStep ([], [])).2)]) = _
  rw [flood_strip,
    splitOnChar_joinNl floodLines (List.cons_ne_nil _ _) (fun l hl => (flood_hL l hl).2),
    flood_lineFold]
  rw [if_neg hne, if_neg (List.cons_ne_nil _ _)]
  simp only [List.nil_append]

theorem flood_split :
    split_into_paragraphs (String.data floodText) =
      [(joinSpace [String.data ("12345"), String.data ("12345")],
        List.replicate 25 (String.data ("botanichka.ru")) ++
          List.replicate 1400 (String.data ("a.ru")))] := by
  show ((splitBlank ((pyStrip (String.data floodText)).length + 1) []
      (pyStrip (String.data floodText))).foldl paraStep []).foldl mergeStep [] = _
  rw [show String.data floodText = joinNl floodLines from rfl]
  rw [flood_strip]
  rw [show (joinNl floodLines).length + 1 = 1 + (joinNl floodLines).length from by omega]
  rw [splitBlank_joinNl floodLines flood_hL 1 []]
  rw [show ([] : List Char).reverse ++ joinNl floodLines = joinNl floodLines from by simp]
  rw [List.foldl_cons, List.foldl_nil]
  rw [flood_paraStep]
  rw [List.foldl_cons, List.foldl_nil]
  rfl

theorem sitePush_new (d : String) (c : Citation) :
    ∀ (m : List (String × List Citation)), d ∉ m.map Prod.fst →
      sitePush m d c = m ++ [(d, [c])] := by
  intro m
  induction m with
  | nil => intro _; rfl
  | cons e rest ih =>
    intro h
    obtain ⟨k, v⟩ := e
    simp only [List.map_cons, List.mem_cons] at h
    push_neg at h
    show (if k = d then (k, v ++ [c]) :: rest else (k, v) :: sitePush rest d c) = _
    rw [if_neg (fun hc => h.1 hc.symm), ih h.2]
    rfl

theorem sitePush_exist (d : String) (c : Citation) :
    ∀ (pre : List (String × List Citation)) (v : List Citation)
      (post : List (String × List Citation)), d ∉ pre.map Prod.fst →
      sitePush (pre ++ (d, v) :: post) d c = pre ++ (d, v ++ [c]) :: post := by
  intro pre
  induction pre with
  | nil =>
    intro v post _
    show (if d = d then (d, v ++ [c]) :: post else (d, v) :: sitePush post d c) = _
    rw [if_pos rfl]
    rfl
  | cons e rest ih =>
    intro v post h
    obtain ⟨k, w⟩ := e
    simp only [List.map_cons, List.mem_cons] at h
    push_neg at h
    show (if k = d then (k, w ++ [c]) :: (rest ++ (d, v) :: post)
      else (k, w) :: sitePush (rest ++ (d, v) :: post) d c) = _
    rw [if_neg (fun hc => h.1 hc.symm), ih v post h.2]
    rfl

theorem citLoop_append (p g w : Nat) :
    ∀ (ds1 ds2 : List String) (idx gpos : Nat) (all : List Citation)
      (sites : List (String × List Citation)),
      citLoop p g w (ds1 ++ ds2) idx gpos all sites =
        citLoop p g w ds2 (idx + ds1.length) (gpos + ds1.length)
          (citLoop p g w ds1 idx gpos all sites).2.1
          (citLoop p g w ds1 idx gpos all sites).2.2 := by
  intro ds1
  induction ds1 with
  | nil => intro ds2 idx gpos all sites; rfl
  | cons d rest ih =>
    intro ds2 idx gpos all sites
    show citLoop p g w (rest ++ ds2) (idx + 1) (gpos + 1)
        (all ++ [Citation.mk d gpos p idx g w])
        (sitePush sites d (Citation.mk d gpos p idx g w)) = _
    rw [ih]
    rw [show idx + 1 + rest.length = idx + (rest.length + 1) from by omega,
        show gpos + 1 + rest.length = gpos + (rest.length + 1) from by omega]
    rfl

theorem citLoop_rep_exist (d : String) (p g w : Nat) :
    ∀ (n idx gpos : Nat) (all : List Citation)
      (pre : List (String × List Citation)) (v : List Citation),
      d ∉ pre.map Prod.fst →
      citLoop p g w (List.replicate n d) idx gpos all (pre ++ [(d, v)]) =
        (gpos + n,
         all ++ (List.range n).map (fun j =>
           Citation.mk d (gpos + j) p (idx + j) g w),
         pre ++ [(d, v ++ (List.range n).map (fun j =>
           Citation.mk d (gpos + j) p (idx + j) g w))]) := by
  intro n
  induction n with
  | zero =>
    intro idx gpos all pre v _
    simp only [List.range_zero, List.map_nil, List.append_nil, Nat.add_zero]
    rfl
  | succ m ih =>
    intro idx gpos all pre v hpre
    rw [List.replicate_succ]
    show citLoop p g w (List.replicate m d) (idx + 1) (gpos + 1)
        (all ++ [Citation.mk d gpos p idx g w])
        (sitePush (pre ++ [(d, v)]) d (Citation.mk d gpos p idx g w)) = _
    rw [show (pre ++ [(d, v)]) = pre ++ (d, v) :: [] from rfl]
    rw [sitePush_exist d _ pre v [] hpre]
    rw [show (pre ++ (d, v ++ [Citation.mk d gpos p idx g w]) :: []) =
      pre ++ [(d, v ++ [Citation.mk d gpos p idx g w])] from rfl]
    rw [ih (idx + 1) (gpos + 1) _ pre _ hpre]
    have hmap : (List.range (m + 1)).map (fun j =>
        Citation.mk d (gpos + j) p (idx + j) g w) =
        Citation.mk d gpos p idx g w ::
        (List.range m).map (fun j =>
          Citation.mk d (gpos + 1 + j) p (idx + 1 + j) g w) := by
      rw [List.range_succ_eq_map, List.map_cons, List.map_map]
      congr 1
      apply List.map_congr_left
      intro j _
      show Citation.mk d (gpos + (j + 1)) p (idx + (j + 1)) g w = _
      rw [show gpos + (j + 1) = gpos + 1 + j from by omega,
          show idx + (j + 1) = idx + 1 + j from by omega]
    rw [hmap]
    simp only [Prod.mk.injEq]
    refine ⟨by omega, ?_, ?_⟩
    · simp
    · simp

theorem citLoop_cons (p g w : Nat) (d : String) (rest : List String) (idx gpos : Nat)
    (all : List Citation) (sites : List (String × List Citation)) :
    citLoop p g w (d :: rest) idx gpos all sites =
      citLoop p g w rest (idx + 1) (gpos + 1) (all ++ [Citation.mk d gpos p idx g w])
        (sitePush sites d (Citation.mk d gpos p idx g w)) := rfl

theorem flood_citLoop :
    citLoop 0 1425 0
      (List.replicate 25 ("botanichka.ru") ++ List.replicate 1400 ("a.ru")) 0 0 [] [] =
      (1425, botCits ++ aruCits,
       [(("botanichka.ru"), botCits), (("a.ru"), aruCits)]) := by
  have hbot : Citation.mk ("botanichka.ru") 0 0 0 1425 0 :: (List.range 24).map (fun j =>
      Citation.mk ("botanichka.ru") (1 + j) 0 (1 + j) 1425 0) = botCits := by
    unfold botCits
    conv_rhs => rw [List.range_succ_eq_map, List.map_cons, List.map_map]
    rw [List.cons.injEq]
    refine ⟨rfl, ?_⟩
    apply List.map_congr_left
    intro j _
    rw [show 1 + j = j + 1 from by omega]
    rfl
  have haru : Citation.mk ("a.ru") 25 0 25 1425 0 :: (List.range 1399).map (fun j =>
      Citation.mk ("a.ru") (26 + j) 0 (26 + j) 1425 0) = aruCits := by
    unfold aruCits
    conv_rhs => rw [List.range_succ_eq_map, List.map_cons, List.map_map]
    rw [List.cons.injEq]
    refine ⟨rfl, ?_⟩
    apply List.map_congr_left
    intro j _
    rw [show (26 : Nat) + j = 25 + (j + 1) from by omega]
    rfl
  have h1 : citLoop 0 1425 0 (List.replicate 25 ("botanichka.ru")) 0 0 [] [] =
      (25, botCits, [(("botanichka.ru"), botCits)]) := by
    rw [show List.replicate 25 ("botanichka.ru") =
      ("botanichka.ru") :: List.replicate 24 ("botanichka.ru") from rfl]
    rw [citLoop_cons]
    rw [show sitePush [] ("botanichka.ru") (Citation.mk ("botanichka.ru") 0 0 0 1425 0) =
      [] ++ [(("botanichka.ru"), [Citation.mk ("botanichka.ru") 0 0 0 1425 0])] from rfl]
    rw [citLoop_rep_exist ("botanichka.ru") 0 1425 0 24 (0 + 1) (0 + 1)
      ([] ++ [Citation.mk ("botanichka.ru") 0 0 0 1425 0]) []
      [Citation.mk ("botanichka.ru") 0 0 0 1425 0] (by simp)]
    rw [show (0 : Nat) + 1 = 1 from rfl]
    simp only [List.nil_append, List.singleton_append]
    rw [hbot]
  have h2 : citLoop 0 1425 0 (List.replicate 1400 ("a.ru")) 25 25 botCits
      [(("botanichka.ru"), botCits)] =
      (1425, botCits ++ aruCits,
       [(("botanichka.ru"), botCits), (("a.ru"), aruCits)]) := by
    rw [show List.replicate 1400 ("a.ru") = ("a.ru") :: List.replicate 1399 ("a.ru") from rfl]
    rw [citLoop_cons]
    rw [sitePush_new ("a.ru") (Citation.mk ("a.ru") 25 0 25 1425 0)
      [(("botanichka.ru"), botCits)] (by simp)]
    rw [citLoop_rep_exist ("a.ru") 0 1425 0 1399 (25 + 1) (25 + 1)
      (botCits ++ [Citation.mk ("a.ru") 25 0 25 1425 0]) [(("botanichka.ru"), botCits)]
      [Citation.mk ("a.ru") 25 0 25 1425 0] (by simp)]
    rw [show (25 : Nat) + 1 = 26 from rfl]
    rw [List.append_assoc]
    simp only [List.singleton_append]
    rw [haru]
  rw [citLoop_append, h1]
  rw [show (0 : Nat) + (List.replicate 25 ("botanichka.ru")).length = 25 from by simp]
  exact h2

theorem flood_parse :
    parse_response (analyzerInit ("botanichka.ru")) floodText = floodState := by
  have hseg : segmentText floodText =
      [(("12345 12345"),
        List.replicate 25 ("botanichka.ru") ++ List.replicate 1400 ("a.ru"))] := by
    unfold segmentText
    rw [flood_split]
    show [(String.mk (joinSpace [String.data ("12345"), String.data ("12345")]),
      (List.replicate 25 (String.data ("botanichka.ru")) ++
       List.replicate 1400 (String.data ("a.ru"))).map String.mk)] = _
    rw [List.map_append, List.map_replicate, List.map_replicate]
    rw [show String.mk (String.data ("botanichka.ru")) = ("botanichka.ru") from rfl,
        show String.mk (String.data ("a.ru")) = ("a.ru") from rfl,
        show String.mk (joinSpace [String.data ("12345"), String.data ("12345")]) =
          ("12345 12345") from rfl]
  have hpl : parseLoop [(("12345 12345"),
      List.replicate 25 ("botanichka.ru") ++ List.replicate 1400 ("a.ru"))] 0 0 0 [] [] [] =
      (0 + wordCount (String.data ("12345 12345")),
       [] ++ [ParagraphData.mk ("12345 12345") (wordCount (String.data ("12345 12345")))
         (List.replicate 25 ("botanichka.ru") ++ List.replicate 1400 ("a.ru"))],
       (citLoop 0 (List.replicate 25 ("botanichka.ru") ++
         List.replicate 1400 ("a.ru")).length (wordCount (String.data ("12345 12345")))
         (List.replicate 25 ("botanichka.ru") ++ List.replicate 1400 ("a.ru")) 0 0 [] []).2.1,
       (citLoop 0 (List.replicate 25 ("botanichka.ru") ++
         List.replicate 1400 ("a.ru")).length (wordCount (String.data ("12345 12345")))
         (List.replicate 25 ("botanichka.ru") ++ List.replicate 1400 ("a.ru")) 0 0 [] []).2.2) :=
    rfl
  show AnalyzerState.mk (analyzerInit ("botanichka.ru")).target_site
      (parseLoop (segmentText floodText) 0 0 0 [] [] []).2.2.1
      (parseLoop (segmentText floodText) 0 0 0 [] [] []).2.2.2
      (parseLoop (segmentText floodText) 0 0 0 [] [] []).1
      (parseLoop (segmentText floodText) 0 0 0 [] [] []).2.1 = floodState
  rw [hseg, hpl]
  rw [show wordCount (String.data ("12345 12345")) = 0 from by decide]
  rw [show (List.replicate 25 ("botanichka.ru") ++
    List.replicate 1400 ("a.ru")).length = 1425 from by simp]
  rw [flood_citLoop]
  rw [show (analyzerInit ("botanichka.ru")).target_site = ("botanichka.ru") from by decide]
  rfl

theorem aruCits_ne_nil : aruCits ≠ [] := by
  simp [aruCits]

theorem flood_lookup : lookupCitations floodState ("a.ru") = aruCits := by
  unfold lookupCitations
  rw [show floodState.site_citations =
    [(("botanichka.ru"), botCits), (("a.ru"), aruCits)] from rfl]
  rw [lookup_cons_eq, if_neg (by decide), lookup_cons_eq, if_pos (by decide)]

theorem geo_bound : ∀ (n k : Nat),
    ((List.range n).map (fun j => (10 : ℚ) * (1 / 2) ^ (k + j))).sum ≤
      20 * (1 / 2) ^ k := by
  intro n
  induction n with
  | zero =>
    intro k
    simp
  | succ m ih =>
    intro k
    rw [List.range_succ_eq_map, List.map_cons, List.map_map, List.sum_cons]
    have hc : (List.range m).map ((fun j => (10 : ℚ) * (1 / 2) ^ (k + j)) ∘ Nat.succ) =
        (List.range m).map (fun j => (10 : ℚ) * (1 / 2) ^ ((k + 1) + j)) := by
      apply List.map_congr_left
      intro j _
      show (10 : ℚ) * (1 / 2) ^ (k + (j + 1)) = (10 : ℚ) * (1 / 2) ^ ((k + 1) + j)
      rw [show k + (j + 1) = (k + 1) + j from by omega]
    rw [hc]
    have h2 := ih (k + 1)
    rw [Nat.add_zero]
    have hps : (20 : ℚ) * (1 / 2) ^ (k + 1) = 10 * (1 / 2) ^ k := by
      rw [pow_succ]
      ring
    linarith

theorem flood_pos_eq : calculate_pos floodState ("a.ru") =
    min (((aruCits.map posTerm).sum) / 10) 1 := by
  show (if lookupCitations floodState ("a.ru") = [] then 0
    else min ((((lookupCitations floodState ("a.ru")).map posTerm).sum) / 10) 1) = _
  rw [flood_lookup, if_neg aruCits_ne_nil]

theorem flood_posTerm_map : aruCits.map posTerm =
    (List.range 1400).map (fun j => (10 : ℚ) * (1 / 2) ^ (25 + j)) := by
  unfold aruCits
  rw [List.map_map]
  apply List.map_congr_left
  intro j _
  show posTerm (aruCit j) = _
  rfl

theorem flood_pos_nonneg : 0 ≤ calculate_pos floodState ("a.ru") := by
  rw [flood_pos_eq]
  apply le_min
  · apply div_nonneg
    · apply List.sum_nonneg
      intro x hx
      rcases List.mem_map.mp hx with ⟨c, _, rfl⟩
      unfold posTerm
      positivity
    · norm_num
  · norm_num

theorem flood_pos_le : calculate_pos floodState ("a.ru") ≤ 2 * (1 / 2 : ℚ) ^ 25 := by
  rw [flood_pos_eq]
  have hb : ((aruCits.map posTerm).sum) ≤ 20 * (1 / 2 : ℚ) ^ 25 := by
    rw [flood_posTerm_map]
    exact geo_bound 1400 25
  calc min (((aruCits.map posTerm).sum) / 10) 1 ≤ ((aruCits.map posTerm).sum) / 10 :=
        min_le_left _ _
    _ ≤ 2 * (1 / 2 : ℚ) ^ 25 := by linarith

theorem flood_word : calculate_word floodState ("a.ru") = 0 := rfl

theorem sum_map_const_cit (q : ℚ) : ∀ l : List Citation,
    (l.map (fun _ => q)).sum = l.length * q := by
  intro l
  induction l with
  | nil => simp
  | cons a t ih =>
    rw [List.map_cons, List.sum_cons, ih, List.length_cons]
    push_cast
    ring

theorem flood_cq : calculate_citation_quality floodState ("a.ru") = 7 / 14250 := by
  have hsolo : aruCits.any (fun c => decide (c.group_size = 1)) = false := by
    rw [List.any_eq_false]
    intro c hc
    rcases List.mem_map.mp hc with ⟨j, _, rfl⟩
    simp [aruCit]
  have hgroup : aruCits.any (fun c => decide (1 < c.group_size)) = true := by
    rw [List.any_eq_true]
    refine ⟨aruCit 0, List.mem_map_of_mem aruCit (List.mem_range.mpr (by norm_num)), ?_⟩
    decide
  have huniq : ¬(floodState.site_citations.length = 1 ∧
      floodState.all_citations.length = 1) := by
    intro hc
    have h1 := hc.1
    rw [show floodState.site_citations =
      [(("botanichka.ru"), botCits), (("a.ru"), aruCits)] from rfl] at h1
    simp at h1
  have hq : ∀ c ∈ aruCits,
      (1 : ℚ) / c.group_size + max 0 ((3 : ℚ) / 10 - 1 / 10 * c.index_in_group) +
        (if 20 < c.window_words then 2 / 10 else 0) = 1 / 1425 := by
    intro c hc
    rcases List.mem_map.mp hc with ⟨j, _, rfl⟩
    rw [show (aruCit j).group_size = 1425 from rfl,
        show (aruCit j).index_in_group = 25 + j from rfl,
        show (aruCit j).window_words = 0 from rfl]
    rw [if_neg (by norm_num)]
    rw [max_eq_left ?hle]
    case hle =>
      have hj0 : (0 : ℚ) ≤ (j : ℚ) := Nat.cast_nonneg j
      push_cast
      linarith
    norm_num
  show (if lookupCitations floodState ("a.ru") = [] then (0 : ℚ)
    else
      min ((((lookupCitations floodState ("a.ru")).map (fun c =>
          (1 : ℚ) / c.group_size + max 0 ((3 : ℚ) / 10 - 1 / 10 * c.index_in_group) +
            (if 20 < c.window_words then 2 / 10 else 0))).sum /
          ((lookupCitations floodState ("a.ru")).map (fun c =>
          (1 : ℚ) / c.group_size + max 0 ((3 : ℚ) / 10 - 1 / 10 * c.index_in_group) +
            (if 20 < c.window_words then 2 / 10 else 0))).length) *
        (if (lookupCitations floodState ("a.ru")).any (fun c => c.group_size = 1) &&
            (lookupCitations floodState ("a.ru")).any (fun c => decide (1 < c.group_size))
         then (1 : ℚ)
         else if (lookupCitations floodState ("a.ru")).any (fun c => c.group_size = 1)
         then 9 / 10 else 7 / 10) +
        (if floodState.site_citations.length = 1 ∧ floodState.all_citations.length = 1
         then (1 : ℚ) / 10 else 0)) 1) = 7 / 14250
  rw [flood_lookup, if_neg aruCits_ne_nil, hsolo, hgroup]
  rw [show ((false : Bool) && true) = false from rfl]
  rw [if_neg (by simp), if_neg (by simp), if_neg huniq]
  rw [List.map_congr_left hq]
  rw [sum_map_const_cit, List.length_map]
  rw [show aruCits.length = 1400 from by simp [aruCits]]
  rw [min_eq_left (by norm_num)]
  norm_num

theorem flood_total_round : (roundMetrics
    (calculate_metrics_for_site floodState ("a.ru"))).total_score = 0 := by
  show round4 (calculate_metrics_for_site floodState ("a.ru")).total_score = 0
  rw [show (calculate_metrics_for_site floodState ("a.ru")).total_score =
    calculate_pos floodState ("a.ru") * (6 / 10) +
      calculate_word floodState ("a.ru") * (3 / 10) +
      calculate_citation_quality floodState ("a.ru") * (1 / 10) from rfl]
  rw [flood_word, flood_cq]
  have hnn := flood_pos_nonneg
  have hle := flood_pos_le
  have hv : ((1 : ℚ) / 2) ^ 25 = 1 / 33554432 := by norm_num
  apply round4_eq_zero
  · linarith
  · rw [hv] at hle
    linarith

theorem evaluate_competitors (a : AnalyzerState) (t : String) :
    (evaluate a t).2.competitors =
      (parse_response a t).site_citations.filterMap (fun e =>
        if e.1 ≠ (parse_response a t).target_site
        then some (e.1, roundMetrics (calculate_metrics_for_site (parse_response a t) e.1))
        else none) := rfl

theorem evaluate_best_site (a : AnalyzerState) (t : String) :
    (evaluate a t).2.best_site = (bestFold ((evaluate a t).2.competitors)).1 := rfl

theorem bestFold_single (e : String × SiteMetrics) :
    bestFold [e] = if (0 : ℚ) < e.2.total_score
      then (some e.1, round4 e.2.total_score) else (none, 0) := rfl

/-- C2 counterexample: in the flood response the competitor `a.ru` is cited
1400 times, yet every citation sits at global position ≥ 25 in a group of
1425 with zero window words, so its total score is positive but rounds to
0.0000; the best-competitor loop, which only replaces its `(None, 0.0)`
start on a strictly greater rounded score, therefore reports `site = None`
even though the competitor list is non-empty. -/
theorem claim_c2_counterexample :
    (evaluate (analyzerInit ("botanichka.ru")) floodText).2.best_site = none ∧
    (evaluate (analyzerInit ("botanichka.ru")) floodText).2.competitors ≠ [] := by
  have hcomp : (evaluate (analyzerInit ("botanichka.ru")) floodText).2.competitors =
      [(("a.ru"), roundMetrics (calculate_metrics_for_site floodState ("a.ru")))] := by
    rw [evaluate_competitors, flood_parse]
    rw [show floodState.site_citations =
      [(("botanichka.ru"), botCits), (("a.ru"), aruCits)] from rfl]
    rw [List.filterMap_cons, List.filterMap_cons, List.filterMap_nil]
    rw [if_neg (show ¬((("botanichka.ru"), botCits).1 ≠ floodState.target_site) from by
      decide)]
    rw [if_pos (show (("a.ru"), aruCits).1 ≠ floodState.target_site from by decide)]
  constructor
  · rw [evaluate_best_site, hcomp, bestFold_single]
    rw [show ((("a.ru"),
      roundMetrics (calculate_metrics_for_site floodState ("a.ru")))).2.total_score =
      (roundMetrics (calculate_metrics_for_site floodState ("a.ru"))).total_score from rfl]
    rw [flood_total_round, if_neg (lt_irrefl (0 : ℚ))]
  · rw [hcomp]
    simp
